import Mathlib

/-!
Verification of the staged discrete weighted transform (DWT) engine of
`src/DirectProgramming/C++SYCL/Sparkler-XeHE/experimental/aos2soa/util/dwt_gpu.hpp`.

Buffers are modelled as total maps `ℕ → ℕ`; a `parallel_for` dispatch is
modelled as a sequential fold of the per-unit kernel body over unit ids
(the kernels' per-unit write sets are pairwise disjoint, which is proved
below, so the sequential order realizes the parallel dispatch).  Machine
words are modelled as `ℕ`; the arithmetic never wraps for moduli within the
bit-width assumptions of the source, so no `% 2 ^ w` is needed.

The modular arithmetic primitives live in `util/dwt_arith.h`, which is not
among the sources at hand; they are modelled from the interface contracts in
section 6 of the specification.
-/

namespace XeheDwt

/-- Modelled from the spec: `dwt_guard` of `util/dwt_arith.h` (the file is not
among the sources); section 6 contract `guard(x, 2M) -> [0, 2M)`, a cheap
conditional subtraction bringing a value from an extended range back under the
bound. -/
def dwt_guard (x bound : ℕ) : ℕ := if bound ≤ x then x - bound else x

/-- Modelled from the spec: `dwt_add` of `util/dwt_arith.h`; section 6 contract
`add(u,v) -> [0,~4M)`, a lazy addition with no reduction. -/
def dwt_add (u v : ℕ) : ℕ := u + v

/-- Modelled from the spec: `dwt_sub` of `util/dwt_arith.h`; section 6 contract
`sub(u,v,2M) -> [0,~4M), non-negative`, kept non-negative via a conditional add
of the bound `2M`. -/
def dwt_sub (u v bound : ℕ) : ℕ := if v ≤ u then u - v else u + bound - v

/-- Modelled from the spec: `dwt_mul_root` of `util/dwt_arith.h`; section 6
contract `mulRoot(v, r, M) -> [0, M)`, modular multiplication by a root. -/
def dwt_mul_root (y r modulus : ℕ) : ℕ := y * r % modulus

/-- Modelled from the spec: `dwt_mul_scalar` of `util/dwt_arith.h`; section 6
contract `mulScalar(u, s, M) -> [0, M)`. -/
def dwt_mul_scalar (u s modulus : ℕ) : ℕ := u * s % modulus

/-- Modelled from the spec: `dwt_mul_root_scalar` of `util/dwt_arith.h`;
section 6 contract `mulRootScalar(r, s, M) -> [0, M)`. -/
def dwt_mul_root_scalar (r s modulus : ℕ) : ℕ := r * s % modulus

/-- Sequential realization of one `parallel_for` dispatch: apply the per-unit
kernel body to unit ids `0, 1, ..., count - 1` in order. -/
def dispatch (body : ℕ → (ℕ → ℕ) → (ℕ → ℕ)) : ℕ → (ℕ → ℕ) → (ℕ → ℕ)
  | 0, vals => vals
  | count + 1, vals => body count (dispatch body count vals)

/-- One unit of `DwtGapLE4::operator()` (dwt_gpu.hpp lines 89-103): decode
`i = idx / gap`, `j = idx % gap`, butterfly on slots `i*(2*gap)+j` and that
offset plus `gap`; the write to `*y` happens after the write to `*x`. -/
def DwtGapLE4 (gap rounds modulus : ℕ) (roots : ℕ → ℕ) (idx : ℕ)
    (vals : ℕ → ℕ) : ℕ → ℕ :=
  let i := idx / gap
  let j := idx % gap
  let r := roots (rounds + i)
  let offset := i * (2 * gap) + j
  let u := dwt_guard (vals offset) (2 * modulus)
  let v := dwt_mul_root (vals (offset + gap)) r modulus
  fun t =>
    if t = offset + gap then dwt_sub u v (2 * modulus)
    else if t = offset then dwt_add u v
    else vals t

/-- The unrolled inner loop of `DwtLargeGap::operator()` (lines 141-147):
`count` iterations already executed; iteration `k` reads and writes the slot
pair `offset + k`, `offset + gap + k`. -/
def largeGapLoop (gap modulus r offset : ℕ) : ℕ → (ℕ → ℕ) → (ℕ → ℕ)
  | 0, vals => vals
  | k + 1, vals =>
    let vals2 := largeGapLoop gap modulus r offset k vals
    let u := dwt_guard (vals2 (offset + k)) (2 * modulus)
    let v := dwt_mul_root (vals2 (offset + gap + k)) r modulus
    fun t =>
      if t = offset + gap + k then dwt_sub u v (2 * modulus)
      else if t = offset + k then dwt_add u v
      else vals2 t

/-- One unit of `DwtLargeGap::operator()` (lines 131-149): decode
`i = idx / (gap/Unroll)`, `j = idx % (gap/Unroll)`, fetch one root shared by
the `Unroll` iterations, then run the unrolled butterfly loop starting at
offset `i*(2*gap) + j*Unroll`. -/
def DwtLargeGap (gap rounds modulus : ℕ) (roots : ℕ → ℕ) (unroll : ℕ)
    (idx : ℕ) (vals : ℕ → ℕ) : ℕ → ℕ :=
  let i := idx / (gap / unroll)
  let j := idx % (gap / unroll)
  let r := roots (rounds + i)
  let offset := i * (2 * gap) + j * unroll
  largeGapLoop gap modulus r offset unroll vals

/-- The full-reduction tail of the last-round kernels (lines 187-190 and
229-232): conditionally subtract `2*modulus`, then conditionally subtract
`modulus`. -/
def fullReduce (x modulus : ℕ) : ℕ :=
  let x1 := x - (if 2 * modulus ≤ x then 2 * modulus else 0)
  x1 - (if modulus ≤ x1 then modulus else 0)

/-- One unit of `DwtLastRound::operator()` (lines 176-194): butterfly on the
adjacent pair `2i`, `2i+1` with full reduction; slot `2i` receives the reduced
sum term `v0` and slot `2i+1` the reduced difference term `v1`. -/
def DwtLastRound (rounds modulus : ℕ) (roots : ℕ → ℕ) (i : ℕ)
    (vals : ℕ → ℕ) : ℕ → ℕ :=
  let r := roots (rounds + i)
  let u := dwt_guard (vals (2 * i)) (2 * modulus)
  let v := dwt_mul_root (vals (2 * i + 1)) r modulus
  let v0 := dwt_add u v
  let v1 := dwt_sub u v (2 * modulus)
  fun t =>
    if t = 2 * i + 1 then fullReduce v1 modulus
    else if t = 2 * i then fullReduce v0 modulus
    else vals t

/-- One unit of `DwtLastRoundScalar::operator()` (lines 217-237): the scalar
is folded into `u` and into the root; unlike the non-scalar variant, slot `2i`
receives the reduced difference term `v1` and slot `2i+1` the reduced sum term
`v0` (the assignment to `u`/`v` is swapped in the source). -/
def DwtLastRoundScalar (rounds modulus : ℕ) (roots : ℕ → ℕ) (scalar : ℕ)
    (i : ℕ) (vals : ℕ → ℕ) : ℕ → ℕ :=
  let r := roots (rounds + i)
  let scaled_r := dwt_mul_root_scalar r scalar modulus
  let u := dwt_mul_scalar (dwt_guard (vals (2 * i)) (2 * modulus)) scalar modulus
  let v := dwt_mul_root (vals (2 * i + 1)) scaled_r modulus
  let v0 := dwt_add u v
  let v1 := dwt_sub u v (2 * modulus)
  fun t =>
    if t = 2 * i + 1 then fullReduce v0 modulus
    else if t = 2 * i then fullReduce v1 modulus
    else vals t

/-- One interior iteration's kernel selection and dispatch
(`Dwt_gpu::operator()` lines 277-317): small-gap kernel over `m*gap` units
when `gap < 4`, else the large-gap kernel with unroll factor 4 over
`m*(gap/4)` units. -/
def stageDispatch (modulus : ℕ) (roots : ℕ → ℕ) (gap m total_r : ℕ)
    (vals : ℕ → ℕ) : ℕ → ℕ :=
  if gap < 4 then dispatch (DwtGapLE4 gap total_r modulus roots) (m * gap) vals
  else dispatch (DwtLargeGap gap total_r modulus roots 4) (m * (gap / 4)) vals

/-- The interior stage loop of `Dwt_gpu::operator()` (lines 270-363).  The
C++ `for (; m < (n >> 1); total_r += m, m <<= 1) { gap >>= 1; ... }` loop is
given an explicit iteration budget `fuel` to drive structural recursion; the
budget passed by `Dwt_gpu` always exceeds the number of iterations the
`m < n/2` condition allows.  Besides the final buffer the model returns the
final `m`, the final `total_r`, and the `(gap, m, total_r)` parameter triples
of the dispatches it issued, in order. -/
def interiorLoop (modulus : ℕ) (roots : ℕ → ℕ) (half_n : ℕ) :
    ℕ → ℕ → ℕ → ℕ → (ℕ → ℕ) → ((ℕ → ℕ) × ℕ × ℕ × List (ℕ × ℕ × ℕ))
  | 0, _gap, m, total_r, vals => (vals, m, total_r, [])
  | fuel + 1, gap, m, total_r, vals =>
    if m < half_n then
      let gap2 := gap / 2
      let vals2 := stageDispatch modulus roots gap2 m total_r vals
      let rest := interiorLoop modulus roots half_n fuel gap2 (m * 2) (total_r + m) vals2
      (rest.1, rest.2.1, rest.2.2.1, (gap2, m, total_r) :: rest.2.2.2)
    else (vals, m, total_r, [])

/-- The interior phase exactly as entered by `Dwt_gpu::operator()`
(lines 267-272): `n = 2 ^ log_n`, `gap = n`, `m = 1`, `total_r = 1`, and the
loop condition `m < n >> 1`. -/
def dwtInterior (modulus : ℕ) (roots : ℕ → ℕ) (log_n : ℕ) (vals : ℕ → ℕ) :
    (ℕ → ℕ) × ℕ × ℕ × List (ℕ × ℕ × ℕ) :=
  interiorLoop modulus roots (2 ^ log_n / 2) log_n (2 ^ log_n) 1 1 vals

/-- `Dwt_gpu::operator()` (lines 265-433): the interior stage loop followed by
the terminal dispatch, which is `DwtLastRoundScalar` when a scalar was
supplied (`scalar_ != nullptr`) and `DwtLastRound` otherwise, over the final
`m` units with the final `total_r`. -/
def Dwt_gpu (modulus : ℕ) (roots : ℕ → ℕ) (scalar : Option ℕ) (log_n : ℕ)
    (vals : ℕ → ℕ) : ℕ → ℕ :=
  let res := dwtInterior modulus roots log_n vals
  match scalar with
  | none => dispatch (DwtLastRound res.2.2.1 modulus roots) res.2.1 res.1
  | some s => dispatch (DwtLastRoundScalar res.2.2.1 modulus roots s) res.2.1 res.1

/-- Buffer contents after the first `k` interior stage dispatches of a
transform of size `2 ^ log_n`: run the interior loop with its iteration budget
cut down to `k`. -/
def bufAfter (modulus : ℕ) (roots : ℕ → ℕ) (log_n : ℕ) (vals : ℕ → ℕ)
    (k : ℕ) : ℕ → ℕ :=
  (interiorLoop modulus roots (2 ^ log_n / 2) k (2 ^ log_n) 1 1 vals).1

/-- The slot offset `i*(2*gap) + j` owned by unit `idx` of the small-gap
kernel. -/
def offS (gap idx : ℕ) : ℕ := idx / gap * (2 * gap) + idx % gap

/-- Write (and read) set of unit `idx` of the small-gap kernel: the slot pair
`offS`, `offS + gap`. -/
def WS (gap idx t : ℕ) : Prop := t = offS gap idx ∨ t = offS gap idx + gap

/-- The butterfly value landing in slot `t` of an interior stage: decode the
pair from `t` itself.  Slots in the lower half of a pair block receive the
add term, slots in the upper half the sub term. -/
def butterflyAt (gap rounds modulus : ℕ) (roots vals : ℕ → ℕ) (t : ℕ) : ℕ :=
  let i := t / (2 * gap)
  let q := t % (2 * gap)
  let base := i * (2 * gap)
  if q < gap then
    dwt_add (dwt_guard (vals (base + q)) (2 * modulus))
      (dwt_mul_root (vals (base + q + gap)) (roots (rounds + i)) modulus)
  else
    dwt_sub (dwt_guard (vals (base + (q - gap))) (2 * modulus))
      (dwt_mul_root (vals (base + (q - gap) + gap)) (roots (rounds + i)) modulus)
      (2 * modulus)

/-- Pointwise description of one whole interior stage over `m` butterfly
groups: every slot below `2*gap*m` receives its butterfly value, every other
slot is untouched. -/
def stageMap (gap m rounds modulus : ℕ) (roots vals : ℕ → ℕ) : ℕ → ℕ :=
  fun t => if t < 2 * gap * m then butterflyAt gap rounds modulus roots vals t else vals t

/-- The slot offset `i*(2*gap) + j*4` owned by unit `idx` of the large-gap
kernel with unroll factor 4. -/
def offL (gap idx : ℕ) : ℕ := idx / (gap / 4) * (2 * gap) + idx % (gap / 4) * 4

/-- Write (and read) set of unit `idx` of the large-gap kernel with unroll
factor 4: the two aligned quads starting at `offL` and `offL + gap`. -/
def WL (gap idx t : ℕ) : Prop :=
  (offL gap idx ≤ t ∧ t < offL gap idx + 4) ∨
  (offL gap idx + gap ≤ t ∧ t < offL gap idx + gap + 4)

/-- Write (and read) set of unit `i` of either last-round kernel: the adjacent
slot pair `2i`, `2i+1`. -/
def WLast (i t : ℕ) : Prop := t = 2 * i ∨ t = 2 * i + 1

/-- Pointwise description of the full non-scalar last round over `m` pairs. -/
def lastRoundMap (rounds modulus m : ℕ) (roots vals : ℕ → ℕ) : ℕ → ℕ :=
  fun t =>
    if t < 2 * m then
      if t % 2 = 0 then
        fullReduce (dwt_add (dwt_guard (vals (2 * (t / 2))) (2 * modulus))
          (dwt_mul_root (vals (2 * (t / 2) + 1)) (roots (rounds + t / 2)) modulus)) modulus
      else
        fullReduce (dwt_sub (dwt_guard (vals (2 * (t / 2))) (2 * modulus))
          (dwt_mul_root (vals (2 * (t / 2) + 1)) (roots (rounds + t / 2)) modulus)
          (2 * modulus)) modulus
    else vals t

/-- Pointwise description of the full scalar-merged last round over `m`
pairs; note the swapped slot assignment relative to `lastRoundMap`. -/
def lastRoundScalarMap (rounds modulus scalar m : ℕ) (roots vals : ℕ → ℕ) : ℕ → ℕ :=
  fun t =>
    if t < 2 * m then
      if t % 2 = 0 then
        fullReduce (dwt_sub
          (dwt_mul_scalar (dwt_guard (vals (2 * (t / 2))) (2 * modulus)) scalar modulus)
          (dwt_mul_root (vals (2 * (t / 2) + 1))
            (dwt_mul_root_scalar (roots (rounds + t / 2)) scalar modulus) modulus)
          (2 * modulus)) modulus
      else
        fullReduce (dwt_add
          (dwt_mul_scalar (dwt_guard (vals (2 * (t / 2))) (2 * modulus)) scalar modulus)
          (dwt_mul_root (vals (2 * (t / 2) + 1))
            (dwt_mul_root_scalar (roots (rounds + t / 2)) scalar modulus) modulus)) modulus
    else vals t

/-- Reference unfolding of the interior loop: apply the stage dispatches of
iterations `k, k+1, ..., k+d-1` of a transform of size `2 ^ log_n`, where
iteration `k` dispatches with `gap = 2^(log_n - (k+1))`, `m = 2^k` and
`total_r = 2^k`. -/
def stagesAux (modulus : ℕ) (roots : ℕ → ℕ) (log_n : ℕ) :
    ℕ → ℕ → (ℕ → ℕ) → (ℕ → ℕ)
  | 0, _k, vals => vals
  | d + 1, k, vals =>
    stagesAux modulus roots log_n d (k + 1)
      (stageDispatch modulus roots (2 ^ (log_n - (k + 1))) (2 ^ k) (2 ^ k) vals)

/-- Reference form of the dispatch-parameter trace left by iterations
`k, ..., k+d-1`. -/
def traceAux (log_n : ℕ) : ℕ → ℕ → List (ℕ × ℕ × ℕ)
  | 0, _k => []
  | d + 1, k => (2 ^ (log_n - (k + 1)), 2 ^ k, 2 ^ k) :: traceAux log_n d (k + 1)

/-- An independent full-buffer scalar pass: multiply every slot below `n` by
`s` modulo `modulus`. -/
def scaleBuf (modulus s n : ℕ) (vals : ℕ → ℕ) : ℕ → ℕ :=
  fun t => if t < n then vals t * s % modulus else vals t

/-- Swap the two slots of every adjacent pair `2i`, `2i+1` below `2*m`. -/
def pairSwap (m : ℕ) (vals : ℕ → ℕ) : ℕ → ℕ :=
  fun t => if t < 2 * m then (if t % 2 = 0 then vals (t + 1) else vals (t - 1)) else vals t

/-- The two slots written by unit `idx` of the small-gap kernel, as a list. -/
def smallSlotList (gap idx : ℕ) : List ℕ := [offS gap idx, offS gap idx + gap]

/-- The eight slots written by unit `idx` of the large-gap kernel with unroll
factor 4, as a list. -/
def largeSlotList (gap idx : ℕ) : List ℕ :=
  [offL gap idx, offL gap idx + 1, offL gap idx + 2, offL gap idx + 3,
    offL gap idx + gap, offL gap idx + gap + 1, offL gap idx + gap + 2,
    offL gap idx + gap + 3]

/-- Modelled from the spec: a forward root table (root-table construction is an
external collaborator, section 3).  For `n = 4`, `modulus = 17` and the
primitive 8th root of unity `psi = 2` mod 17, the table holds the powers of
`psi` in bit-reversed order (source doc comment, line 70):
`[psi ^ 0, psi ^ 2, psi ^ 1, psi ^ 3] = [1, 4, 2, 8]`. -/
def rootsFwd4 : ℕ → ℕ := fun t => [1, 4, 2, 8].getD t 0

/-- Modelled from the spec: the matching inverse root table for `n = 4`,
`modulus = 17`, per the scrambled-order convention of the source doc comment
(lines 59-60): slot `i` holds the `reverse_bits(i - 1, 2) + 1`-th power of
the inverse of `psi`, which is `9` mod 17, so slots 1..3 hold
`[9 ^ 1, 9 ^ 3, 9 ^ 2] mod 17 = [9, 15, 13]`; slot 0 is reserved/unused. -/
def rootsInv4 : ℕ → ℕ := fun t => [1, 9, 15, 13].getD t 0

/-- The concrete input buffer `[1, 2, 3, 4]` of the specification's n = 4
scenario (section 8). -/
def input4 : ℕ → ℕ := fun t => [1, 2, 3, 4].getD t 0

/-- The bit-reversal permutation on a 4-slot buffer (swaps slots 1 and 2). -/
def brev4 (vals : ℕ → ℕ) : ℕ → ℕ :=
  fun t => vals (if t = 1 then 2 else if t = 2 then 1 else t)

/-- Constant root table used by the scalar-merge counterexample. -/
def c3roots : ℕ → ℕ := fun _ => 1

/-- Buffer `[1, 1]` used by the scalar-merge counterexample. -/
def c3vals : ℕ → ℕ := fun t => if t < 2 then 1 else 0

/-- A root table whose entries above index 0 are `4`. -/
def c4roots1 : ℕ → ℕ := fun t => if t = 0 then 1 else 4

/-- A root table agreeing with `c4roots1` strictly below index `n - 1 = 1`
(that is, at index 0 only) but differing from index 1 on. -/
def c4roots2 : ℕ → ℕ := fun t => if t = 0 then 1 else 2

/-- Buffer `[1, 2]` used by the root-table-size counterexample. -/
def c4vals : ℕ → ℕ := fun t => [1, 2].getD t 0

/-! ### Generic facts about disjoint-write dispatches

`W idx t` reads "unit `idx` writes slot `t`", `R idx s` reads "unit `idx`
reads slot `s`".  When units only modify their own write set, depend only on
their own read set, and distinct units' read/write sets do not collide with
each other's writes, the sequential fold `dispatch` behaves like a parallel
update: every slot holds either its original value or the value its unique
writing unit computes from the original buffer. -/

theorem uniq_div_mod {B a b a2 b2 : ℕ} (hb : b < B) (hb2 : b2 < B)
    (h : a * B + b = a2 * B + b2) : a = a2 ∧ b = b2 := by
  have hB : 0 < B := Nat.lt_of_le_of_lt (Nat.zero_le _) hb
  have ha : a = a2 := by
    have h2 := congrArg (fun z => z / B) h
    simpa [Nat.mul_comm, Nat.mul_add_div hB, Nat.div_eq_of_lt hb,
      Nat.div_eq_of_lt hb2] using h2
  refine ⟨ha, ?_⟩
  subst ha
  exact Nat.add_left_cancel h

theorem dispatch_untouched {body : ℕ → (ℕ → ℕ) → (ℕ → ℕ)} {W : ℕ → ℕ → Prop}
    (h1 : ∀ idx vals t, ¬ W idx t → body idx vals t = vals t) :
    ∀ count (vals : ℕ → ℕ) (t : ℕ), (∀ idx, idx < count → ¬ W idx t) →
      dispatch body count vals t = vals t := by
  intro count
  induction count with
  | zero => intro vals t _; rfl
  | succ count ih =>
    intro vals t h
    show body count (dispatch body count vals) t = vals t
    rw [h1 _ _ _ (h count (Nat.lt_succ_self _))]
    exact ih vals t fun idx hi => h idx (Nat.lt_succ_of_lt hi)

theorem dispatch_writer {body : ℕ → (ℕ → ℕ) → (ℕ → ℕ)} {W R : ℕ → ℕ → Prop}
    (h1 : ∀ idx vals t, ¬ W idx t → body idx vals t = vals t)
    (h2 : ∀ idx (vals vals2 : ℕ → ℕ), (∀ s, R idx s → vals s = vals2 s) →
      ∀ t, W idx t → body idx vals t = body idx vals2 t)
    (h3 : ∀ idx idx2 t, idx ≠ idx2 → W idx t → ¬ W idx2 t)
    (h4 : ∀ idx idx2 s, idx ≠ idx2 → R idx s → ¬ W idx2 s) :
    ∀ count (vals : ℕ → ℕ) idx t, idx < count → W idx t →
      dispatch body count vals t = body idx vals t := by
  intro count
  induction count with
  | zero => intro vals idx t hi _; exact absurd hi (Nat.not_lt_zero _)
  | succ count ih =>
    intro vals idx t hi hW
    show body count (dispatch body count vals) t = body idx vals t
    rcases Nat.lt_succ_iff_lt_or_eq.mp hi with hlt | heq
    · have hne : idx ≠ count := Nat.ne_of_lt hlt
      rw [h1 _ _ _ (h3 idx count t hne hW)]
      exact ih vals idx t hlt hW
    · subst heq
      refine h2 idx _ vals (fun s hs => ?_) t hW
      exact dispatch_untouched h1 idx vals s fun idx2 hi2 =>
        h4 idx idx2 s (Nat.ne_of_gt hi2) hs

/-! ### The small-gap kernel as a pointwise map -/

theorem DwtGapLE4_apply (gap rounds modulus : ℕ) (roots : ℕ → ℕ) (idx : ℕ)
    (vals : ℕ → ℕ) (t : ℕ) :
    DwtGapLE4 gap rounds modulus roots idx vals t =
      if t = offS gap idx + gap then
        dwt_sub (dwt_guard (vals (offS gap idx)) (2 * modulus))
          (dwt_mul_root (vals (offS gap idx + gap)) (roots (rounds + idx / gap)) modulus)
          (2 * modulus)
      else if t = offS gap idx then
        dwt_add (dwt_guard (vals (offS gap idx)) (2 * modulus))
          (dwt_mul_root (vals (offS gap idx + gap)) (roots (rounds + idx / gap)) modulus)
      else vals t := rfl

theorem DwtGapLE4_untouched {gap idx t : ℕ} (rounds modulus : ℕ)
    (roots vals : ℕ → ℕ) (h : ¬ WS gap idx t) :
    DwtGapLE4 gap rounds modulus roots idx vals t = vals t := by
  rw [DwtGapLE4_apply, if_neg (fun he => h (Or.inr he)),
    if_neg (fun he => h (Or.inl he))]

theorem DwtGapLE4_reads {gap idx : ℕ} (rounds modulus : ℕ) (roots : ℕ → ℕ)
    {vals vals2 : ℕ → ℕ} (hg : 0 < gap)
    (hread : ∀ s, WS gap idx s → vals s = vals2 s) :
    ∀ t, WS gap idx t →
      DwtGapLE4 gap rounds modulus roots idx vals t =
        DwtGapLE4 gap rounds modulus roots idx vals2 t := by
  intro t ht
  have hru := hread _ (Or.inl rfl)
  have hrv := hread _ (Or.inr rfl)
  rw [DwtGapLE4_apply, DwtGapLE4_apply, hru, hrv]
  rcases ht with ht | ht
  · subst ht
    rw [if_neg (by omega), if_pos rfl, if_neg (by omega), if_pos rfl]
  · subst ht
    rw [if_pos rfl, if_pos rfl]

theorem offS_self (gap idx : ℕ) : offS gap idx = idx / gap * (2 * gap) + idx % gap := rfl

theorem WS_disjoint {gap idx idx2 t : ℕ} (hg : 0 < gap) (hne : idx ≠ idx2)
    (h : WS gap idx t) : ¬ WS gap idx2 t := by
  intro h2
  apply hne
  have m1 : idx % gap < gap := Nat.mod_lt _ hg
  have m2 : idx2 % gap < gap := Nat.mod_lt _ hg
  have key : idx / gap = idx2 / gap ∧ idx % gap = idx2 % gap := by
    rcases h with h | h <;> rcases h2 with h2 | h2
    · exact uniq_div_mod (by omega) (by omega) (h ▸ h2 ▸ rfl : offS gap idx = offS gap idx2)
    · have he : idx / gap * (2 * gap) + idx % gap
          = idx2 / gap * (2 * gap) + (idx2 % gap + gap) := by
        have : offS gap idx = offS gap idx2 + gap := by rw [← h, ← h2]
        simpa [offS, Nat.add_assoc] using this
      have := @uniq_div_mod (2 * gap) _ _ _ _ (by omega) (by omega) he
      omega
    · have he : idx / gap * (2 * gap) + (idx % gap + gap)
          = idx2 / gap * (2 * gap) + idx2 % gap := by
        have : offS gap idx + gap = offS gap idx2 := by rw [← h, ← h2]
        simpa [offS, Nat.add_assoc] using this
      have := @uniq_div_mod (2 * gap) _ _ _ _ (by omega) (by omega) he
      omega
    · have he : idx / gap * (2 * gap) + (idx % gap + gap)
          = idx2 / gap * (2 * gap) + (idx2 % gap + gap) := by
        have : offS gap idx + gap = offS gap idx2 + gap := by rw [← h, ← h2]
        simpa [offS, Nat.add_assoc] using this
      have := @uniq_div_mod (2 * gap) _ _ _ _ (by omega) (by omega) he
      omega
  calc idx = idx / gap * gap + idx % gap := by rw [Nat.mul_comm]; exact (Nat.div_add_mod idx gap).symm
    _ = idx2 / gap * gap + idx2 % gap := by rw [key.1, key.2]
    _ = idx2 := by rw [Nat.mul_comm]; exact Nat.div_add_mod idx2 gap

theorem WS_lt {gap m n idx t : ℕ} (hg : 0 < gap) (hn : 2 * gap * m = n)
    (hidx : idx < m * gap) (h : WS gap idx t) : t < n := by
  have hi : idx / gap < m := (Nat.div_lt_iff_lt_mul hg).mpr hidx
  have m1 : idx % gap < gap := Nat.mod_lt _ hg
  have hb : offS gap idx + gap < n := by
    have h1 : idx / gap * (2 * gap) + 2 * gap ≤ m * (2 * gap) := by
      have h2 : idx / gap + 1 ≤ m := Nat.succ_le_of_lt hi
      calc idx / gap * (2 * gap) + 2 * gap = (idx / gap + 1) * (2 * gap) := by ring
        _ ≤ m * (2 * gap) := Nat.mul_le_mul_right _ h2
    have h3 : m * (2 * gap) = n := by rw [← hn]; ring
    rw [offS_self]
    omega
  rcases h with h | h <;> omega

theorem dispatch_DwtGapLE4 (gap rounds modulus m : ℕ) (roots vals : ℕ → ℕ)
    (hg : 0 < gap) :
    dispatch (DwtGapLE4 gap rounds modulus roots) (m * gap) vals
      = stageMap gap m rounds modulus roots vals := by
  funext t
  by_cases ht : t < 2 * gap * m
  · have h2g : 0 < 2 * gap := by omega
    have hqlt : t % (2 * gap) < 2 * gap := Nat.mod_lt _ h2g
    have hti : t = t / (2 * gap) * (2 * gap) + t % (2 * gap) := by
      rw [Nat.mul_comm]; exact (Nat.div_add_mod t (2 * gap)).symm
    have him : t / (2 * gap) < m := by
      rw [Nat.div_lt_iff_lt_mul h2g]
      calc t < 2 * gap * m := ht
        _ = m * (2 * gap) := by ring
    rw [stageMap, if_pos ht]
    by_cases hq : t % (2 * gap) < gap
    · set i := t / (2 * gap) with hidef
      set q := t % (2 * gap) with hqdef
      have hud : (i * gap + q) / gap = i := by
        rw [Nat.mul_comm i gap, Nat.mul_add_div hg, Nat.div_eq_of_lt hq, Nat.add_zero]
      have hum : (i * gap + q) % gap = q := by
        rw [Nat.mul_comm i gap, Nat.mul_add_mod, Nat.mod_eq_of_lt hq]
      have hoffT : offS gap (i * gap + q) = t := by
        rw [offS_self, hud, hum, ← hti]
      have hult : i * gap + q < m * gap := by
        have h2 : i + 1 ≤ m := Nat.succ_le_of_lt him
        calc i * gap + q < (i + 1) * gap := by
              have : (i + 1) * gap = i * gap + gap := by ring
              omega
          _ ≤ m * gap := Nat.mul_le_mul_right _ h2
      rw [@dispatch_writer (DwtGapLE4 gap rounds modulus roots) (WS gap) (WS gap)
        (fun idx vals0 t0 h => DwtGapLE4_untouched rounds modulus roots vals0 h)
        (fun idx vals0 vals02 hr t0 hw => DwtGapLE4_reads rounds modulus roots hg hr t0 hw)
        (fun idx idx2 t0 hne hw => WS_disjoint hg hne hw)
        (fun idx idx2 s hne hr => WS_disjoint hg hne hr)
        (m * gap) vals (i * gap + q) t hult (Or.inl hoffT.symm)]
      rw [DwtGapLE4_apply, hoffT, hud]
      rw [if_neg (by omega), if_pos rfl]
      show dwt_add (dwt_guard (vals t) (2 * modulus))
          (dwt_mul_root (vals (t + gap)) (roots (rounds + i)) modulus)
        = butterflyAt gap rounds modulus roots vals t
      rw [butterflyAt]
      simp only [← hidef, ← hqdef]
      rw [if_pos hq, ← hti]
    · set i := t / (2 * gap) with hidef
      set q := t % (2 * gap) with hqdef
      have hq2 : q - gap < gap := by omega
      have hud : (i * gap + (q - gap)) / gap = i := by
        rw [Nat.mul_comm i gap, Nat.mul_add_div hg, Nat.div_eq_of_lt hq2, Nat.add_zero]
      have hum : (i * gap + (q - gap)) % gap = q - gap := by
        rw [Nat.mul_comm i gap, Nat.mul_add_mod, Nat.mod_eq_of_lt hq2]
      have hoffT : offS gap (i * gap + (q - gap)) + gap = t := by
        rw [offS_self, hud, hum]
        omega
      have hult : i * gap + (q - gap) < m * gap := by
        have h2 : i + 1 ≤ m := Nat.succ_le_of_lt him
        calc i * gap + (q - gap) < (i + 1) * gap := by
              have : (i + 1) * gap = i * gap + gap := by ring
              omega
          _ ≤ m * gap := Nat.mul_le_mul_right _ h2
      rw [@dispatch_writer (DwtGapLE4 gap rounds modulus roots) (WS gap) (WS gap)
        (fun idx vals0 t0 h => DwtGapLE4_untouched rounds modulus roots vals0 h)
        (fun idx vals0 vals02 hr t0 hw => DwtGapLE4_reads rounds modulus roots hg hr t0 hw)
        (fun idx idx2 t0 hne hw => WS_disjoint hg hne hw)
        (fun idx idx2 s hne hr => WS_disjoint hg hne hr)
        (m * gap) vals (i * gap + (q - gap)) t hult (Or.inr hoffT.symm)]
      rw [DwtGapLE4_apply, hoffT, hud]
      rw [if_pos rfl]
      rw [butterflyAt]
      simp only [← hidef, ← hqdef]
      rw [if_neg hq]
      have hbase : i * (2 * gap) + (q - gap) = offS gap (i * gap + (q - gap)) := by
        rw [offS_self, hud, hum]
      have hbase2 : i * (2 * gap) + (q - gap) + gap = t := by
        rw [hbase]; exact hoffT
      rw [hbase2, hbase]
  · rw [stageMap, if_neg ht]
    exact @dispatch_untouched (DwtGapLE4 gap rounds modulus roots) (WS gap)
      (fun idx vals0 t0 h => DwtGapLE4_untouched rounds modulus roots vals0 h)
      (m * gap) vals t (fun idx hidx hW => ht (WS_lt hg rfl hidx hW))

/-! ### The large-gap kernel as the same pointwise map -/

theorem largeGapLoop_succ (gap modulus r offset c : ℕ) (vals : ℕ → ℕ) :
    largeGapLoop gap modulus r offset (c + 1) vals = fun t =>
      if t = offset + gap + c then
        dwt_sub (dwt_guard (largeGapLoop gap modulus r offset c vals (offset + c)) (2 * modulus))
          (dwt_mul_root (largeGapLoop gap modulus r offset c vals (offset + gap + c)) r modulus)
          (2 * modulus)
      else if t = offset + c then
        dwt_add (dwt_guard (largeGapLoop gap modulus r offset c vals (offset + c)) (2 * modulus))
          (dwt_mul_root (largeGapLoop gap modulus r offset c vals (offset + gap + c)) r modulus)
      else largeGapLoop gap modulus r offset c vals t := rfl

theorem largeGapLoop_eq (gap modulus r offset : ℕ) (vals : ℕ → ℕ) :
    ∀ c, c ≤ gap →
      largeGapLoop gap modulus r offset c vals = fun t =>
        if offset ≤ t ∧ t < offset + c then
          dwt_add (dwt_guard (vals t) (2 * modulus)) (dwt_mul_root (vals (t + gap)) r modulus)
        else if offset + gap ≤ t ∧ t < offset + gap + c then
          dwt_sub (dwt_guard (vals (t - gap)) (2 * modulus)) (dwt_mul_root (vals t) r modulus)
            (2 * modulus)
        else vals t := by
  intro c
  induction c with
  | zero =>
    intro _
    funext t
    show vals t = _
    rw [if_neg (by omega), if_neg (by omega)]
  | succ c ih =>
    intro hc
    have hcg : c < gap := hc
    have ihc := ih (Nat.le_of_lt hcg)
    have hchar : ∀ s, largeGapLoop gap modulus r offset c vals s =
        if offset ≤ s ∧ s < offset + c then
          dwt_add (dwt_guard (vals s) (2 * modulus)) (dwt_mul_root (vals (s + gap)) r modulus)
        else if offset + gap ≤ s ∧ s < offset + gap + c then
          dwt_sub (dwt_guard (vals (s - gap)) (2 * modulus)) (dwt_mul_root (vals s) r modulus)
            (2 * modulus)
        else vals s := fun s => congrFun ihc s
    have rx : largeGapLoop gap modulus r offset c vals (offset + c) = vals (offset + c) := by
      rw [hchar, if_neg (by omega), if_neg (by omega)]
    have ry : largeGapLoop gap modulus r offset c vals (offset + gap + c)
        = vals (offset + gap + c) := by
      rw [hchar, if_neg (by omega), if_neg (by omega)]
    funext t
    simp only [largeGapLoop_succ]
    rw [rx, ry]
    by_cases h1 : t = offset + gap + c
    · subst h1
      rw [if_pos rfl, if_neg (by omega), if_pos (by omega : offset + gap ≤ offset + gap + c
          ∧ offset + gap + c < offset + gap + (c + 1))]
      have e1 : offset + gap + c - gap = offset + c := by omega
      rw [e1]
    · by_cases h2 : t = offset + c
      · subst h2
        rw [if_neg h1, if_pos rfl,
          if_pos (by omega : offset ≤ offset + c ∧ offset + c < offset + (c + 1))]
        have e1 : offset + c + gap = offset + gap + c := by omega
        rw [e1]
      · rw [if_neg h1, if_neg h2, hchar t]
        split_ifs <;> first | rfl | omega

theorem DwtLargeGap_apply (gap rounds modulus : ℕ) (roots : ℕ → ℕ) (idx : ℕ)
    (vals : ℕ → ℕ) :
    DwtLargeGap gap rounds modulus roots 4 idx vals =
      largeGapLoop gap modulus (roots (rounds + idx / (gap / 4))) (offL gap idx) 4 vals := rfl

theorem DwtLargeGap_untouched {gap idx t : ℕ} (rounds modulus : ℕ)
    (roots vals : ℕ → ℕ) (h4g : 4 ≤ gap) (h : ¬ WL gap idx t) :
    DwtLargeGap gap rounds modulus roots 4 idx vals t = vals t := by
  rw [DwtLargeGap_apply]
  have hch := congrFun (largeGapLoop_eq gap modulus (roots (rounds + idx / (gap / 4)))
    (offL gap idx) vals 4 h4g) t
  simp only [] at hch
  rw [hch, if_neg (fun hc => h (Or.inl hc)), if_neg (fun hc => h (Or.inr hc))]

theorem DwtLargeGap_reads {gap idx : ℕ} (rounds modulus : ℕ) (roots : ℕ → ℕ)
    {vals vals2 : ℕ → ℕ} (h4g : 4 ≤ gap)
    (hread : ∀ s, WL gap idx s → vals s = vals2 s) :
    ∀ t, WL gap idx t →
      DwtLargeGap gap rounds modulus roots 4 idx vals t =
        DwtLargeGap gap rounds modulus roots 4 idx vals2 t := by
  intro t ht
  rw [DwtLargeGap_apply, DwtLargeGap_apply]
  have hch := congrFun (largeGapLoop_eq gap modulus (roots (rounds + idx / (gap / 4)))
    (offL gap idx) vals 4 h4g) t
  have hch2 := congrFun (largeGapLoop_eq gap modulus (roots (rounds + idx / (gap / 4)))
    (offL gap idx) vals2 4 h4g) t
  simp only [] at hch hch2
  rw [hch, hch2]
  rcases ht with ⟨ha, hb⟩ | ⟨ha, hb⟩
  · rw [if_pos ⟨ha, hb⟩, if_pos ⟨ha, hb⟩,
      hread t (Or.inl ⟨ha, hb⟩), hread (t + gap) (Or.inr ⟨by omega, by omega⟩)]
  · rw [if_neg (by omega), if_pos ⟨ha, hb⟩, if_neg (by omega), if_pos ⟨ha, hb⟩,
      hread t (Or.inr ⟨ha, hb⟩), hread (t - gap) (Or.inl ⟨by omega, by omega⟩)]

theorem WL_disjoint {gap idx idx2 t : ℕ} (h4g : 4 ≤ gap) (hd : 4 ∣ gap)
    (hne : idx ≠ idx2) (h : WL gap idx t) : ¬ WL gap idx2 t := by
  intro h2
  apply hne
  obtain ⟨G, hG4⟩ := hd
  have hG : 0 < G := by omega
  have hGg : gap / 4 = G := by rw [hG4]; exact Nat.mul_div_cancel_left G (by omega)
  have hj1 : idx % G < G := Nat.mod_lt _ hG
  have hj2 : idx2 % G < G := Nat.mod_lt _ hG
  have hoff1 : offL gap idx = idx / G * (2 * gap) + idx % G * 4 := by rw [offL, hGg]
  have hoff2 : offL gap idx2 = idx2 / G * (2 * gap) + idx2 % G * 4 := by rw [offL, hGg]
  rw [WL, hoff1] at h
  rw [WL, hoff2] at h2
  have key : idx / G = idx2 / G ∧ idx % G = idx2 % G := by
    rcases h with ⟨ha, hb⟩ | ⟨ha, hb⟩ <;> rcases h2 with ⟨hc, hdd⟩ | ⟨hc, hdd⟩
    · have e := @uniq_div_mod (2 * gap) (idx / G) (idx % G * 4 + (t - offL gap idx))
        (idx2 / G) (idx2 % G * 4 + (t - offL gap idx2))
        (by rw [hoff1]; omega) (by rw [hoff2]; omega)
        (by rw [hoff1, hoff2] at *; omega)
      have e2 := @uniq_div_mod 4 (idx % G) (t - offL gap idx)
        (idx2 % G) (t - offL gap idx2)
        (by rw [hoff1]; omega) (by rw [hoff2]; omega) (by omega)
      exact ⟨e.1, e2.1⟩
    · exfalso
      have e := @uniq_div_mod (2 * gap) (idx / G) (idx % G * 4 + (t - offL gap idx))
        (idx2 / G) (gap + (idx2 % G * 4 + (t - (offL gap idx2 + gap))))
        (by rw [hoff1]; omega) (by rw [hoff2]; omega)
        (by rw [hoff1, hoff2] at *; omega)
      have hb1 : idx % G * 4 + (t - offL gap idx) < gap := by rw [hoff1]; omega
      omega
    · exfalso
      have e := @uniq_div_mod (2 * gap) (idx / G)
        (gap + (idx % G * 4 + (t - (offL gap idx + gap))))
        (idx2 / G) (idx2 % G * 4 + (t - offL gap idx2))
        (by rw [hoff1]; omega) (by rw [hoff2]; omega)
        (by rw [hoff1, hoff2] at *; omega)
      have hb2 : idx2 % G * 4 + (t - offL gap idx2) < gap := by rw [hoff2]; omega
      omega
    · have e := @uniq_div_mod (2 * gap) (idx / G)
        (gap + (idx % G * 4 + (t - (offL gap idx + gap))))
        (idx2 / G) (gap + (idx2 % G * 4 + (t - (offL gap idx2 + gap))))
        (by rw [hoff1]; omega) (by rw [hoff2]; omega)
        (by rw [hoff1, hoff2] at *; omega)
      have e2 := @uniq_div_mod 4 (idx % G) (t - (offL gap idx + gap))
        (idx2 % G) (t - (offL gap idx2 + gap))
        (by rw [hoff1]; omega) (by rw [hoff2]; omega) (by omega)
      exact ⟨e.1, e2.1⟩
  calc idx = idx / G * G + idx % G := by rw [Nat.mul_comm]; exact (Nat.div_add_mod idx G).symm
    _ = idx2 / G * G + idx2 % G := by rw [key.1, key.2]
    _ = idx2 := by rw [Nat.mul_comm]; exact Nat.div_add_mod idx2 G

theorem WL_lt {gap m n idx t : ℕ} (h4g : 4 ≤ gap) (hd : 4 ∣ gap)
    (hn : 2 * gap * m = n) (hidx : idx < m * (gap / 4)) (h : WL gap idx t) : t < n := by
  obtain ⟨G, hG4⟩ := hd
  have hG : 0 < G := by omega
  have hGg : gap / 4 = G := by rw [hG4]; exact Nat.mul_div_cancel_left G (by omega)
  rw [hGg] at hidx
  have hi : idx / G < m := (Nat.div_lt_iff_lt_mul hG).mpr hidx
  have hj : idx % G < G := Nat.mod_lt _ hG
  have hoff : offL gap idx = idx / G * (2 * gap) + idx % G * 4 := by rw [offL, hGg]
  have hmul : (idx / G + 1) * (2 * gap) ≤ m * (2 * gap) :=
    Nat.mul_le_mul_right _ (Nat.succ_le_of_lt hi)
  have hexp : (idx / G + 1) * (2 * gap) = idx / G * (2 * gap) + 2 * gap := by ring
  have h3 : m * (2 * gap) = n := by rw [← hn]; ring
  rcases h with ⟨ha, hb⟩ | ⟨ha, hb⟩ <;> rw [hoff] at hb <;> omega

theorem dispatch_DwtLargeGap (gap rounds modulus m : ℕ) (roots vals : ℕ → ℕ)
    (h4g : 4 ≤ gap) (hd : 4 ∣ gap) :
    dispatch (DwtLargeGap gap rounds modulus roots 4) (m * (gap / 4)) vals
      = stageMap gap m rounds modulus roots vals := by
  obtain ⟨G, hG4⟩ := hd
  have hG : 0 < G := by omega
  have hGg : gap / 4 = G := by rw [hG4]; exact Nat.mul_div_cancel_left G (by omega)
  have hdvd : (4 : ℕ) ∣ gap := ⟨G, hG4⟩
  funext t
  by_cases ht : t < 2 * gap * m
  · have h2g : 0 < 2 * gap := by omega
    have hqlt : t % (2 * gap) < 2 * gap := Nat.mod_lt _ h2g
    have hti : t = t / (2 * gap) * (2 * gap) + t % (2 * gap) := by
      rw [Nat.mul_comm]; exact (Nat.div_add_mod t (2 * gap)).symm
    have him : t / (2 * gap) < m := by
      rw [Nat.div_lt_iff_lt_mul h2g]
      calc t < 2 * gap * m := ht
        _ = m * (2 * gap) := by ring
    rw [stageMap, if_pos ht]
    set i := t / (2 * gap) with hidef
    set q := t % (2 * gap) with hqdef
    by_cases hq : q < gap
    · set unit := i * G + q / 4 with hunit
      have hq4 : q / 4 < G := by
        rw [Nat.div_lt_iff_lt_mul (by omega : (0:ℕ) < 4)]
        omega
      have hud : unit / G = i := by
        rw [hunit, Nat.mul_comm i G, Nat.mul_add_div hG, Nat.div_eq_of_lt hq4, Nat.add_zero]
      have hum : unit % G = q / 4 := by
        rw [hunit, Nat.mul_comm i G, Nat.mul_add_mod, Nat.mod_eq_of_lt hq4]
      have hoffU : offL gap unit = i * (2 * gap) + q / 4 * 4 := by
        rw [offL, hGg, hud, hum]
      have hq44 : q / 4 * 4 + q % 4 = q := by
        rw [Nat.mul_comm]; exact Nat.div_add_mod q 4
      have hq4m : q % 4 < 4 := Nat.mod_lt _ (by omega)
      have hW : WL gap unit t := by
        rw [WL, hoffU]
        left
        omega
      have hult : unit < m * (gap / 4) := by
        rw [hGg, hunit]
        have h2 : i + 1 ≤ m := Nat.succ_le_of_lt him
        calc i * G + q / 4 < (i + 1) * G := by
              have he : (i + 1) * G = i * G + G := by ring
              omega
          _ ≤ m * G := Nat.mul_le_mul_right _ h2
      rw [@dispatch_writer (DwtLargeGap gap rounds modulus roots 4) (WL gap) (WL gap)
        (fun idx vals0 t0 h => DwtLargeGap_untouched rounds modulus roots vals0 h4g h)
        (fun idx vals0 vals02 hr t0 hw => DwtLargeGap_reads rounds modulus roots h4g hr t0 hw)
        (fun idx idx2 t0 hne hw => WL_disjoint h4g hdvd hne hw)
        (fun idx idx2 s hne hr => WL_disjoint h4g hdvd hne hr)
        (m * (gap / 4)) vals unit t hult hW]
      rw [DwtLargeGap_apply]
      have hch := congrFun (largeGapLoop_eq gap modulus (roots (rounds + unit / (gap / 4)))
        (offL gap unit) vals 4 h4g) t
      simp only [] at hch
      rw [hch, if_pos (by rw [hoffU]; constructor <;> omega)]
      rw [hGg, hud]
      rw [butterflyAt]
      simp only [← hidef, ← hqdef]
      rw [if_pos hq, ← hti]
    · set q2 := q - gap with hq2def
      have hq2lt : q2 < gap := by omega
      set unit := i * G + q2 / 4 with hunit
      have hq4 : q2 / 4 < G := by
        rw [Nat.div_lt_iff_lt_mul (by omega : (0:ℕ) < 4)]
        omega
      have hud : unit / G = i := by
        rw [hunit, Nat.mul_comm i G, Nat.mul_add_div hG, Nat.div_eq_of_lt hq4, Nat.add_zero]
      have hum : unit % G = q2 / 4 := by
        rw [hunit, Nat.mul_comm i G, Nat.mul_add_mod, Nat.mod_eq_of_lt hq4]
      have hoffU : offL gap unit = i * (2 * gap) + q2 / 4 * 4 := by
        rw [offL, hGg, hud, hum]
      have hq44 : q2 / 4 * 4 + q2 % 4 = q2 := by
        rw [Nat.mul_comm]; exact Nat.div_add_mod q2 4
      have hq4m : q2 % 4 < 4 := Nat.mod_lt _ (by omega)
      have hW : WL gap unit t := by
        rw [WL, hoffU]
        right
        omega
      have hult : unit < m * (gap / 4) := by
        rw [hGg, hunit]
        have h2 : i + 1 ≤ m := Nat.succ_le_of_lt him
        calc i * G + q2 / 4 < (i + 1) * G := by
              have he : (i + 1) * G = i * G + G := by ring
              omega
          _ ≤ m * G := Nat.mul_le_mul_right _ h2
      rw [@dispatch_writer (DwtLargeGap gap rounds modulus roots 4) (WL gap) (WL gap)
        (fun idx vals0 t0 h => DwtLargeGap_untouched rounds modulus roots vals0 h4g h)
        (fun idx vals0 vals02 hr t0 hw => DwtLargeGap_reads rounds modulus roots h4g hr t0 hw)
        (fun idx idx2 t0 hne hw => WL_disjoint h4g hdvd hne hw)
        (fun idx idx2 s hne hr => WL_disjoint h4g hdvd hne hr)
        (m * (gap / 4)) vals unit t hult hW]
      rw [DwtLargeGap_apply]
      have hch := congrFun (largeGapLoop_eq gap modulus (roots (rounds + unit / (gap / 4)))
        (offL gap unit) vals 4 h4g) t
      simp only [] at hch
      rw [hch, if_neg (by rw [hoffU]; omega), if_pos (by rw [hoffU]; constructor <;> omega)]
      rw [hGg, hud]
      rw [butterflyAt]
      simp only [← hidef, ← hqdef]
      rw [if_neg hq]
      have e1 : t - gap = i * (2 * gap) + (q - gap) := by omega
      have e2 : i * (2 * gap) + (q - gap) + gap = t := by omega
      rw [e1, e2]
  · rw [stageMap, if_neg ht]
    exact @dispatch_untouched (DwtLargeGap gap rounds modulus roots 4) (WL gap)
      (fun idx vals0 t0 h => DwtLargeGap_untouched rounds modulus roots vals0 h4g h)
      (m * (gap / 4)) vals t
      (fun idx hidx hW => ht (WL_lt h4g hdvd rfl hidx hW))

/-! ### The two last-round kernels as pointwise maps -/

theorem DwtLastRound_apply (rounds modulus : ℕ) (roots : ℕ → ℕ) (i : ℕ)
    (vals : ℕ → ℕ) (t : ℕ) :
    DwtLastRound rounds modulus roots i vals t =
      if t = 2 * i + 1 then
        fullReduce (dwt_sub (dwt_guard (vals (2 * i)) (2 * modulus))
          (dwt_mul_root (vals (2 * i + 1)) (roots (rounds + i)) modulus) (2 * modulus)) modulus
      else if t = 2 * i then
        fullReduce (dwt_add (dwt_guard (vals (2 * i)) (2 * modulus))
          (dwt_mul_root (vals (2 * i + 1)) (roots (rounds + i)) modulus)) modulus
      else vals t := rfl

theorem DwtLastRoundScalar_apply (rounds modulus : ℕ) (roots : ℕ → ℕ)
    (scalar i : ℕ) (vals : ℕ → ℕ) (t : ℕ) :
    DwtLastRoundScalar rounds modulus roots scalar i vals t =
      if t = 2 * i + 1 then
        fullReduce (dwt_add
          (dwt_mul_scalar (dwt_guard (vals (2 * i)) (2 * modulus)) scalar modulus)
          (dwt_mul_root (vals (2 * i + 1))
            (dwt_mul_root_scalar (roots (rounds + i)) scalar modulus) modulus)) modulus
      else if t = 2 * i then
        fullReduce (dwt_sub
          (dwt_mul_scalar (dwt_guard (vals (2 * i)) (2 * modulus)) scalar modulus)
          (dwt_mul_root (vals (2 * i + 1))
            (dwt_mul_root_scalar (roots (rounds + i)) scalar modulus) modulus)
          (2 * modulus)) modulus
      else vals t := rfl

theorem DwtLastRound_untouched {i t : ℕ} (rounds modulus : ℕ)
    (roots vals : ℕ → ℕ) (h : ¬ WLast i t) :
    DwtLastRound rounds modulus roots i vals t = vals t := by
  rw [DwtLastRound_apply, if_neg (fun he => h (Or.inr he)),
    if_neg (fun he => h (Or.inl he))]

theorem DwtLastRoundScalar_untouched {i t : ℕ} (rounds modulus scalar : ℕ)
    (roots vals : ℕ → ℕ) (h : ¬ WLast i t) :
    DwtLastRoundScalar rounds modulus roots scalar i vals t = vals t := by
  rw [DwtLastRoundScalar_apply, if_neg (fun he => h (Or.inr he)),
    if_neg (fun he => h (Or.inl he))]

theorem DwtLastRound_reads {i : ℕ} (rounds modulus : ℕ) (roots : ℕ → ℕ)
    {vals vals2 : ℕ → ℕ} (hread : ∀ s, WLast i s → vals s = vals2 s) :
    ∀ t, WLast i t →
      DwtLastRound rounds modulus roots i vals t =
        DwtLastRound rounds modulus roots i vals2 t := by
  intro t ht
  rw [DwtLastRound_apply, DwtLastRound_apply,
    hread (2 * i) (Or.inl rfl), hread (2 * i + 1) (Or.inr rfl)]
  rcases ht with ht | ht
  · subst ht
    rw [if_neg (by omega), if_pos rfl, if_neg (by omega), if_pos rfl]
  · subst ht
    rw [if_pos rfl, if_pos rfl]

theorem DwtLastRoundScalar_reads {i : ℕ} (rounds modulus scalar : ℕ)
    (roots : ℕ → ℕ) {vals vals2 : ℕ → ℕ}
    (hread : ∀ s, WLast i s → vals s = vals2 s) :
    ∀ t, WLast i t →
      DwtLastRoundScalar rounds modulus roots scalar i vals t =
        DwtLastRoundScalar rounds modulus roots scalar i vals2 t := by
  intro t ht
  rw [DwtLastRoundScalar_apply, DwtLastRoundScalar_apply,
    hread (2 * i) (Or.inl rfl), hread (2 * i + 1) (Or.inr rfl)]
  rcases ht with ht | ht
  · subst ht
    rw [if_neg (by omega), if_pos rfl, if_neg (by omega), if_pos rfl]
  · subst ht
    rw [if_pos rfl, if_pos rfl]

theorem WLast_disjoint {i i2 t : ℕ} (hne : i ≠ i2) (h : WLast i t) :
    ¬ WLast i2 t := by
  intro h2
  rcases h with h | h <;> rcases h2 with h2 | h2 <;> omega

theorem dispatch_DwtLastRound (rounds modulus m : ℕ) (roots vals : ℕ → ℕ) :
    dispatch (DwtLastRound rounds modulus roots) m vals
      = lastRoundMap rounds modulus m roots vals := by
  funext t
  by_cases ht : t < 2 * m
  · have hW : WLast (t / 2) t := by rw [WLast]; omega
    have hult : t / 2 < m := by omega
    rw [@dispatch_writer (DwtLastRound rounds modulus roots) WLast WLast
      (fun idx vals0 t0 h => DwtLastRound_untouched rounds modulus roots vals0 h)
      (fun idx vals0 vals02 hr t0 hw => DwtLastRound_reads rounds modulus roots hr t0 hw)
      (fun idx idx2 t0 hne hw => WLast_disjoint hne hw)
      (fun idx idx2 s hne hr => WLast_disjoint hne hr)
      m vals (t / 2) t hult hW]
    rw [DwtLastRound_apply, lastRoundMap, if_pos ht]
    rcases hW with hW | hW
    · rw [if_neg (by omega), if_pos hW, if_pos (by omega : t % 2 = 0)]
    · rw [if_pos hW, if_neg (by omega : ¬ t % 2 = 0)]
  · rw [lastRoundMap, if_neg ht]
    exact @dispatch_untouched (DwtLastRound rounds modulus roots) WLast
      (fun idx vals0 t0 h => DwtLastRound_untouched rounds modulus roots vals0 h)
      m vals t (fun idx hidx hW => by rw [WLast] at hW; omega)

theorem dispatch_DwtLastRoundScalar (rounds modulus scalar m : ℕ)
    (roots vals : ℕ → ℕ) :
    dispatch (DwtLastRoundScalar rounds modulus roots scalar) m vals
      = lastRoundScalarMap rounds modulus scalar m roots vals := by
  funext t
  by_cases ht : t < 2 * m
  · have hW : WLast (t / 2) t := by rw [WLast]; omega
    have hult : t / 2 < m := by omega
    rw [@dispatch_writer (DwtLastRoundScalar rounds modulus roots scalar) WLast WLast
      (fun idx vals0 t0 h => DwtLastRoundScalar_untouched rounds modulus scalar roots vals0 h)
      (fun idx vals0 vals02 hr t0 hw =>
        DwtLastRoundScalar_reads rounds modulus scalar roots hr t0 hw)
      (fun idx idx2 t0 hne hw => WLast_disjoint hne hw)
      (fun idx idx2 s hne hr => WLast_disjoint hne hr)
      m vals (t / 2) t hult hW]
    rw [DwtLastRoundScalar_apply, lastRoundScalarMap, if_pos ht]
    rcases hW with hW | hW
    · rw [if_neg (by omega), if_pos hW, if_pos (by omega : t % 2 = 0)]
    · rw [if_pos hW, if_neg (by omega : ¬ t % 2 = 0)]
  · rw [lastRoundScalarMap, if_neg ht]
    exact @dispatch_untouched (DwtLastRoundScalar rounds modulus roots scalar) WLast
      (fun idx vals0 t0 h => DwtLastRoundScalar_untouched rounds modulus scalar roots vals0 h)
      m vals t (fun idx hidx hW => by rw [WLast] at hW; omega)

/-! ### Bounds satisfied by the spec-modelled arithmetic primitives -/

theorem dwt_guard_lt {x modulus : ℕ} (h : x < 4 * modulus) :
    dwt_guard x (2 * modulus) < 2 * modulus := by
  simp only [dwt_guard]
  split_ifs <;> omega

theorem dwt_mul_root_lt (y r : ℕ) {modulus : ℕ} (hM : 0 < modulus) :
    dwt_mul_root y r modulus < modulus := Nat.mod_lt _ hM

theorem fullReduce_lt {x modulus : ℕ} (h : x < 4 * modulus) :
    fullReduce x modulus < modulus := by
  simp only [fullReduce]
  split_ifs <;> omega

theorem fullReduce_eq_mod {x modulus : ℕ} (h : x < 4 * modulus) :
    fullReduce x modulus = x % modulus := by
  have h1 : fullReduce x modulus < modulus := fullReduce_lt h
  suffices hs : fullReduce x modulus % modulus = x % modulus by
    rw [← hs, Nat.mod_eq_of_lt h1]
  simp only [fullReduce]
  split_ifs with h2 h3
  · have e : x = x - 2 * modulus - modulus + 3 * modulus := by omega
    conv_rhs => rw [e]
    rw [Nat.add_mul_mod_self_right]
  · rw [Nat.sub_zero]
    have e : x = x - 2 * modulus + 2 * modulus := by omega
    conv_rhs => rw [e]
    rw [Nat.add_mul_mod_self_right]
  all_goals rename_i h3
  · have e : x = x - 0 - modulus + modulus := by omega
    conv_rhs => rw [e]
    rw [Nat.add_mod_right]
  · rw [Nat.sub_zero, Nat.sub_zero]

/-! ### Unfolding the orchestrator loop -/

theorem pow_sub_div_two {L k : ℕ} (h : k + 1 ≤ L) :
    2 ^ (L - k) / 2 = 2 ^ (L - (k + 1)) := by
  have e : L - k = (L - (k + 1)) + 1 := by omega
  rw [e, pow_succ, Nat.mul_div_cancel _ (by omega : (0:ℕ) < 2)]

theorem stagesAux_succ (modulus : ℕ) (roots : ℕ → ℕ) (L : ℕ) :
    ∀ d k (vals : ℕ → ℕ), stagesAux modulus roots L (d + 1) k vals =
      stageDispatch modulus roots (2 ^ (L - (k + d + 1))) (2 ^ (k + d)) (2 ^ (k + d))
        (stagesAux modulus roots L d k vals) := by
  intro d
  induction d with
  | zero => intro k vals; rfl
  | succ d ih =>
    intro k vals
    have hstep : stagesAux modulus roots L (d + 1 + 1) k vals
        = stagesAux modulus roots L (d + 1) (k + 1)
            (stageDispatch modulus roots (2 ^ (L - (k + 1))) (2 ^ k) (2 ^ k) vals) := rfl
    rw [hstep, ih (k + 1)]
    have e : k + 1 + d = k + (d + 1) := by omega
    rw [e]
    rfl

theorem interiorLoop_run (modulus : ℕ) (roots : ℕ → ℕ) (L : ℕ) :
    ∀ d k fuel (vals : ℕ → ℕ), k + d + 1 = L → d ≤ fuel →
      interiorLoop modulus roots (2 ^ L / 2) fuel (2 ^ (L - k)) (2 ^ k) (2 ^ k) vals =
        (stagesAux modulus roots L d k vals, 2 ^ (L - 1), 2 ^ (L - 1), traceAux L d k) := by
  intro d
  induction d with
  | zero =>
    intro k fuel vals hk _
    have hkL : k = L - 1 := by omega
    have hhalf : 2 ^ L / 2 = 2 ^ (L - 1) := by
      have e : L - 0 = L := by omega
      rw [← e]
      exact pow_sub_div_two (by omega)
    have hcond : ¬ (2 ^ k < 2 ^ L / 2) := by
      rw [hhalf, hkL]
      exact Nat.lt_irrefl _
    cases fuel with
    | zero =>
      show ((vals, 2 ^ k, 2 ^ k, []) : (ℕ → ℕ) × ℕ × ℕ × List (ℕ × ℕ × ℕ)) = _
      rw [hkL]
      rfl
    | succ f =>
      simp only [interiorLoop]
      rw [if_neg hcond, hkL]
      rfl
  | succ d ih =>
    intro k fuel vals hk hfuel
    have hkd : k < L - 1 := by omega
    have hhalf : 2 ^ L / 2 = 2 ^ (L - 1) := by
      have e : L - 0 = L := by omega
      rw [← e]
      exact pow_sub_div_two (by omega)
    have hcond : 2 ^ k < 2 ^ L / 2 := by
      rw [hhalf]
      exact Nat.pow_lt_pow_right (by omega) (by omega)
    cases fuel with
    | zero => omega
    | succ f =>
      simp only [interiorLoop]
      rw [if_pos hcond]
      rw [pow_sub_div_two (by omega : k + 1 ≤ L)]
      have hm2 : 2 ^ k * 2 = 2 ^ (k + 1) := (pow_succ 2 k).symm
      have hr2 : 2 ^ k + 2 ^ k = 2 ^ (k + 1) := by
        have e : 2 ^ (k + 1) = 2 ^ k * 2 := pow_succ 2 k
        omega
      rw [hm2, hr2]
      rw [ih (k + 1) f _ (by omega) (by omega)]
      rfl

theorem interiorLoop_partial (modulus : ℕ) (roots : ℕ → ℕ) (L : ℕ) :
    ∀ f k (vals : ℕ → ℕ), k + f + 1 ≤ L →
      (interiorLoop modulus roots (2 ^ L / 2) f (2 ^ (L - k)) (2 ^ k) (2 ^ k) vals).1 =
        stagesAux modulus roots L f k vals := by
  intro f
  induction f with
  | zero => intro k vals _; rfl
  | succ f ih =>
    intro k vals hkf
    have hkd : k < L - 1 := by omega
    have hhalf : 2 ^ L / 2 = 2 ^ (L - 1) := by
      have e : L - 0 = L := by omega
      rw [← e]
      exact pow_sub_div_two (by omega)
    have hcond : 2 ^ k < 2 ^ L / 2 := by
      rw [hhalf]
      exact Nat.pow_lt_pow_right (by omega) (by omega)
    simp only [interiorLoop]
    rw [if_pos hcond]
    rw [pow_sub_div_two (by omega : k + 1 ≤ L)]
    have hm2 : 2 ^ k * 2 = 2 ^ (k + 1) := (pow_succ 2 k).symm
    have hr2 : 2 ^ k + 2 ^ k = 2 ^ (k + 1) := by
      have e : 2 ^ (k + 1) = 2 ^ k * 2 := pow_succ 2 k
      omega
    rw [hm2, hr2]
    exact ih (k + 1) _ (by omega)

theorem dwtInterior_eq (modulus : ℕ) (roots : ℕ → ℕ) (L : ℕ) (vals : ℕ → ℕ)
    (hL : 1 ≤ L) :
    dwtInterior modulus roots L vals =
      (stagesAux modulus roots L (L - 1) 0 vals, 2 ^ (L - 1), 2 ^ (L - 1),
        traceAux L (L - 1) 0) := by
  have h := interiorLoop_run modulus roots L (L - 1) 0 L vals (by omega) (by omega)
  exact h

theorem bufAfter_eq (modulus : ℕ) (roots : ℕ → ℕ) (L : ℕ) (vals : ℕ → ℕ)
    (k : ℕ) (h : k + 1 ≤ L) :
    bufAfter modulus roots L vals k = stagesAux modulus roots L k 0 vals :=
  interiorLoop_partial modulus roots L k 0 vals (by omega)

theorem Dwt_gpu_none (modulus : ℕ) (roots : ℕ → ℕ) (L : ℕ) (vals : ℕ → ℕ)
    (hL : 1 ≤ L) :
    Dwt_gpu modulus roots none L vals =
      dispatch (DwtLastRound (2 ^ (L - 1)) modulus roots) (2 ^ (L - 1))
        (stagesAux modulus roots L (L - 1) 0 vals) := by
  simp only [Dwt_gpu]
  rw [dwtInterior_eq modulus roots L vals hL]

theorem Dwt_gpu_some (modulus : ℕ) (roots : ℕ → ℕ) (s L : ℕ) (vals : ℕ → ℕ)
    (hL : 1 ≤ L) :
    Dwt_gpu modulus roots (some s) L vals =
      dispatch (DwtLastRoundScalar (2 ^ (L - 1)) modulus roots s) (2 ^ (L - 1))
        (stagesAux modulus roots L (L - 1) 0 vals) := by
  simp only [Dwt_gpu]
  rw [dwtInterior_eq modulus roots L vals hL]

theorem traceAux_length (L : ℕ) : ∀ d k, (traceAux L d k).length = d := by
  intro d
  induction d with
  | zero => intro k; rfl
  | succ d ih => intro k; simp [traceAux, ih (k + 1)]

theorem traceAux_get (L : ℕ) :
    ∀ d k0 (k : ℕ) (hk : k < (traceAux L d k0).length),
      (traceAux L d k0).get ⟨k, hk⟩ =
        (2 ^ (L - (k0 + k + 1)), 2 ^ (k0 + k), 2 ^ (k0 + k)) := by
  intro d
  induction d with
  | zero => intro k0 k hk; simp [traceAux_length] at hk
  | succ d ih =>
    intro k0 k hk
    cases k with
    | zero => simp [traceAux]
    | succ j =>
      have hj : j < (traceAux L d (k0 + 1)).length := by
        rw [traceAux_length]
        rw [traceAux_length] at hk
        omega
      have hstep : (traceAux L (d + 1) k0).get ⟨j + 1, hk⟩
          = (traceAux L d (k0 + 1)).get ⟨j, hj⟩ := rfl
      rw [hstep, ih (k0 + 1) j hj]
      have e : k0 + 1 + j = k0 + (j + 1) := by omega
      rw [e]

/-! ### Stage-level helper lemmas -/

theorem stage_pow_size {L k : ℕ} (h : k + 1 ≤ L) :
    2 * 2 ^ (L - (k + 1)) * 2 ^ k = 2 ^ L := by
  have e1 : 2 * 2 ^ (L - (k + 1)) = 2 ^ (L - k) := by
    rw [← pow_succ']
    congr 1
    omega
  rw [e1, ← pow_add]
  congr 1
  omega

theorem stageDispatch_eq_stageMap (modulus : ℕ) (roots : ℕ → ℕ) {gap : ℕ}
    (m total_r : ℕ) (e : ℕ) (hgap : gap = 2 ^ e) (vals : ℕ → ℕ) :
    stageDispatch modulus roots gap m total_r vals
      = stageMap gap m total_r modulus roots vals := by
  have hg : 0 < gap := by rw [hgap]; exact pow_pos (by omega) e
  rw [stageDispatch]
  split_ifs with h
  · exact dispatch_DwtGapLE4 gap total_r modulus m roots vals hg
  · have h4 : 4 ≤ gap := by omega
    have he2 : 2 ≤ e := by
      rcases Nat.lt_or_ge e 2 with he | he
      · exfalso
        have hle : 2 ^ e ≤ 2 ^ 1 := Nat.pow_le_pow_right (by omega) (by omega)
        rw [← hgap] at hle
        omega
      · exact he
    have hd : (4 : ℕ) ∣ gap := by
      refine ⟨2 ^ (e - 2), ?_⟩
      rw [hgap, show (4 : ℕ) = 2 ^ 2 from rfl, ← pow_add]
      congr 1
      omega
    exact dispatch_DwtLargeGap gap total_r modulus m roots vals h4 hd

theorem stageMap_bound {gap m modulus : ℕ} (rounds : ℕ) (roots vals : ℕ → ℕ)
    (hM : 0 < modulus) (hg : 0 < gap)
    (h : ∀ t, t < 2 * gap * m → vals t < 4 * modulus) :
    ∀ t, t < 2 * gap * m → stageMap gap m rounds modulus roots vals t < 4 * modulus := by
  intro t ht
  rw [stageMap, if_pos ht, butterflyAt]
  have h2g : 0 < 2 * gap := by omega
  have hq : t % (2 * gap) < 2 * gap := Nat.mod_lt _ h2g
  have hti : t = t / (2 * gap) * (2 * gap) + t % (2 * gap) := by
    rw [Nat.mul_comm]; exact (Nat.div_add_mod t (2 * gap)).symm
  have him : t / (2 * gap) < m := by
    rw [Nat.div_lt_iff_lt_mul h2g]
    calc t < 2 * gap * m := ht
      _ = m * (2 * gap) := by ring
  have hbound : t / (2 * gap) * (2 * gap) + 2 * gap ≤ 2 * gap * m := by
    have h2 : (t / (2 * gap) + 1) * (2 * gap) ≤ m * (2 * gap) :=
      Nat.mul_le_mul_right (2 * gap) him
    have e1 : (t / (2 * gap) + 1) * (2 * gap) = t / (2 * gap) * (2 * gap) + 2 * gap := by ring
    have e2 : m * (2 * gap) = 2 * gap * m := by ring
    omega
  set i := t / (2 * gap)
  set q := t % (2 * gap)
  split_ifs with hqg
  · have r1 : i * (2 * gap) + q < 2 * gap * m := by omega
    have r2 : i * (2 * gap) + q + gap < 2 * gap * m := by omega
    have hu := dwt_guard_lt (h _ r1)
    have hv := dwt_mul_root_lt (vals (i * (2 * gap) + q + gap)) (roots (rounds + i)) hM
    simp only [dwt_add]
    omega
  · have r1 : i * (2 * gap) + (q - gap) < 2 * gap * m := by omega
    have r2 : i * (2 * gap) + (q - gap) + gap < 2 * gap * m := by omega
    have hu := dwt_guard_lt (h _ r1)
    have hv := dwt_mul_root_lt (vals (i * (2 * gap) + (q - gap) + gap))
      (roots (rounds + i)) hM
    simp only [dwt_sub]
    split_ifs <;> omega

theorem lastRoundMap_bound {modulus m : ℕ} (rounds : ℕ) (roots vals : ℕ → ℕ)
    (hM : 0 < modulus) (h : ∀ t, t < 2 * m → vals t < 4 * modulus) :
    ∀ t, t < 2 * m → lastRoundMap rounds modulus m roots vals t < modulus := by
  intro t ht
  have hu := dwt_guard_lt (h (2 * (t / 2)) (by omega))
  have hv := dwt_mul_root_lt (vals (2 * (t / 2) + 1)) (roots (rounds + t / 2)) hM
  rw [lastRoundMap, if_pos ht]
  split_ifs with hpar
  · refine fullReduce_lt ?_
    simp only [dwt_add]
    omega
  · refine fullReduce_lt ?_
    simp only [dwt_sub]
    split_ifs <;> omega

theorem lastRoundScalarMap_bound {modulus m : ℕ} (rounds scalar : ℕ)
    (roots vals : ℕ → ℕ) (hM : 0 < modulus)
    (h : ∀ t, t < 2 * m → vals t < 4 * modulus) :
    ∀ t, t < 2 * m →
      lastRoundScalarMap rounds modulus scalar m roots vals t < modulus := by
  intro t ht
  have hu : dwt_mul_scalar (dwt_guard (vals (2 * (t / 2))) (2 * modulus)) scalar modulus
      < modulus := Nat.mod_lt _ hM
  have hv := dwt_mul_root_lt (vals (2 * (t / 2) + 1))
    (dwt_mul_root_scalar (roots (rounds + t / 2)) scalar modulus) hM
  rw [lastRoundScalarMap, if_pos ht]
  split_ifs with hpar
  · refine fullReduce_lt ?_
    simp only [dwt_sub]
    split_ifs <;> omega
  · refine fullReduce_lt ?_
    simp only [dwt_add]
    omega

/-! ### Root-table agreement propagates through the transform -/

theorem dispatch_congr {b1 b2 : ℕ → (ℕ → ℕ) → (ℕ → ℕ)} :
    ∀ count, (∀ idx, idx < count → ∀ vals, b1 idx vals = b2 idx vals) →
      ∀ vals, dispatch b1 count vals = dispatch b2 count vals := by
  intro count
  induction count with
  | zero => intro _ vals; rfl
  | succ count ih =>
    intro h vals
    show b1 count (dispatch b1 count vals) = b2 count (dispatch b2 count vals)
    rw [ih (fun idx hi => h idx (Nat.lt_succ_of_lt hi)) vals,
      h count (Nat.lt_succ_self _)]

theorem DwtGapLE4_congr {gap rounds modulus idx : ℕ} {roots1 roots2 : ℕ → ℕ}
    (h : roots1 (rounds + idx / gap) = roots2 (rounds + idx / gap)) :
    ∀ vals, DwtGapLE4 gap rounds modulus roots1 idx vals
      = DwtGapLE4 gap rounds modulus roots2 idx vals := by
  intro vals
  funext t
  rw [DwtGapLE4_apply, DwtGapLE4_apply, h]

theorem DwtLargeGap_congr {gap rounds modulus idx : ℕ} {roots1 roots2 : ℕ → ℕ}
    (h : roots1 (rounds + idx / (gap / 4)) = roots2 (rounds + idx / (gap / 4))) :
    ∀ vals, DwtLargeGap gap rounds modulus roots1 4 idx vals
      = DwtLargeGap gap rounds modulus roots2 4 idx vals := by
  intro vals
  rw [DwtLargeGap_apply, DwtLargeGap_apply, h]

theorem DwtLastRound_congr {rounds modulus idx : ℕ} {roots1 roots2 : ℕ → ℕ}
    (h : roots1 (rounds + idx) = roots2 (rounds + idx)) :
    ∀ vals, DwtLastRound rounds modulus roots1 idx vals
      = DwtLastRound rounds modulus roots2 idx vals := by
  intro vals
  funext t
  rw [DwtLastRound_apply, DwtLastRound_apply, h]

theorem DwtLastRoundScalar_congr {rounds modulus scalar idx : ℕ}
    {roots1 roots2 : ℕ → ℕ}
    (h : roots1 (rounds + idx) = roots2 (rounds + idx)) :
    ∀ vals, DwtLastRoundScalar rounds modulus roots1 scalar idx vals
      = DwtLastRoundScalar rounds modulus roots2 scalar idx vals := by
  intro vals
  funext t
  rw [DwtLastRoundScalar_apply, DwtLastRoundScalar_apply, h]

theorem stageDispatch_congr {modulus gap m total_r : ℕ} {roots1 roots2 : ℕ → ℕ}
    (hagree : ∀ t, t < total_r + m → roots1 t = roots2 t) :
    ∀ vals, stageDispatch modulus roots1 gap m total_r vals
      = stageDispatch modulus roots2 gap m total_r vals := by
  intro vals
  rw [stageDispatch, stageDispatch]
  split_ifs with h
  · refine dispatch_congr (m * gap) (fun idx hidx vals0 => ?_) vals
    have hg : 0 < gap := by
      rcases Nat.eq_zero_or_pos gap with h0 | h0
      · rw [h0] at hidx; omega
      · exact h0
    have hi : idx / gap < m := (Nat.div_lt_iff_lt_mul hg).mpr hidx
    exact DwtGapLE4_congr (hagree _ (by omega)) vals0
  · refine dispatch_congr (m * (gap / 4)) (fun idx hidx vals0 => ?_) vals
    have hg : 0 < gap / 4 := by
      rcases Nat.eq_zero_or_pos (gap / 4) with h0 | h0
      · rw [h0] at hidx; omega
      · exact h0
    have hi : idx / (gap / 4) < m := (Nat.div_lt_iff_lt_mul hg).mpr hidx
    exact DwtLargeGap_congr (hagree _ (by omega)) vals0

theorem stagesAux_congr {modulus L : ℕ} {roots1 roots2 : ℕ → ℕ}
    (hagree : ∀ t, t < 2 ^ L → roots1 t = roots2 t) :
    ∀ d k (vals : ℕ → ℕ), k + d ≤ L →
      stagesAux modulus roots1 L d k vals = stagesAux modulus roots2 L d k vals := by
  intro d
  induction d with
  | zero => intro k vals _; rfl
  | succ d ih =>
    intro k vals hkd
    show stagesAux modulus roots1 L d (k + 1) _ = stagesAux modulus roots2 L d (k + 1) _
    have hsub : ∀ t, t < 2 ^ k + 2 ^ k → roots1 t = roots2 t := by
      intro t htt
      refine hagree t (lt_of_lt_of_le htt ?_)
      have e : (2 : ℕ) ^ k + 2 ^ k = 2 ^ (k + 1) := by
        have e2 : (2 : ℕ) ^ (k + 1) = 2 ^ k * 2 := pow_succ 2 k
        omega
      rw [e]
      exact Nat.pow_le_pow_right (by omega) (by omega)
    rw [stageDispatch_congr hsub vals]
    exact ih (k + 1) _ (by omega)

/-! ### Casting the primitives into `ZMod` -/

theorem natCast_dwt_sub (modulus : ℕ) {u v : ℕ} (h : v ≤ 2 * modulus) :
    ((dwt_sub u v (2 * modulus) : ℕ) : ZMod modulus)
      = (u : ZMod modulus) - (v : ZMod modulus) := by
  simp only [dwt_sub]
  split_ifs with hvu
  · rw [Nat.cast_sub hvu]
  · rw [Nat.cast_sub (by omega : v ≤ u + 2 * modulus)]
    push_cast
    rw [ZMod.natCast_self]
    ring

theorem natCast_fullReduce {x modulus : ℕ} (h : x < 4 * modulus) :
    ((fullReduce x modulus : ℕ) : ZMod modulus) = (x : ZMod modulus) := by
  rw [fullReduce_eq_mod h, ZMod.natCast_mod]

theorem eq_of_natCast_eq {a b modulus : ℕ} (hM : 0 < modulus) (ha : a < modulus)
    (hb : b < modulus) (h : (a : ZMod modulus) = (b : ZMod modulus)) : a = b := by
  haveI : NeZero modulus := ⟨by omega⟩
  have h2 := congrArg ZMod.val h
  rwa [ZMod.val_cast_of_lt ha, ZMod.val_cast_of_lt hb] at h2

theorem mem_smallSlotList {gap idx t : ℕ} :
    t ∈ smallSlotList gap idx ↔ WS gap idx t := by
  simp [smallSlotList, WS]

theorem mem_largeSlotList {gap idx t : ℕ} :
    t ∈ largeSlotList gap idx ↔ WL gap idx t := by
  simp only [largeSlotList, List.mem_cons, List.not_mem_nil, or_false, WL]
  constructor <;> intro h <;> omega

/-! ### The claims -/

/-- C7: Unrolling preserves semantics.  For every stage parameter pair
`(gap, root_offset)` with `gap` a power of two at least 4, running the
large-gap kernel (unroll 4) over `m*(gap/4)` units produces exactly the same
buffer contents as running the small-gap per-pair butterfly over `m*gap`
units. -/
theorem c7_unroll_equiv (gap e rounds modulus m : ℕ) (roots vals : ℕ → ℕ)
    (hgap : gap = 2 ^ e) (he : 2 ≤ e) :
    dispatch (DwtLargeGap gap rounds modulus roots 4) (m * (gap / 4)) vals
      = dispatch (DwtGapLE4 gap rounds modulus roots) (m * gap) vals := by
  have h4 : 4 ≤ gap := by
    rw [hgap]
    calc (4 : ℕ) = 2 ^ 2 := rfl
      _ ≤ 2 ^ e := Nat.pow_le_pow_right (by omega) he
  have hd : (4 : ℕ) ∣ gap := by
    refine ⟨2 ^ (e - 2), ?_⟩
    rw [hgap, show (4 : ℕ) = 2 ^ 2 from rfl, ← pow_add]
    congr 1
    omega
  rw [dispatch_DwtLargeGap gap rounds modulus m roots vals h4 hd,
    dispatch_DwtGapLE4 gap rounds modulus m roots vals (by omega)]

/-- Witness for C7 at `gap = 4`, `m = 2`, `modulus = 17`. -/
theorem c7_unroll_equiv_witness :
    ((4 : ℕ) = 2 ^ 2 ∧ 2 ≤ 2)
    ∧ dispatch (DwtLargeGap 4 1 17 (fun _ => 3) 4) (2 * (4 / 4)) (fun t => t)
      = dispatch (DwtGapLE4 4 1 17 (fun _ => 3)) (2 * 4) (fun t => t) :=
  ⟨⟨rfl, by omega⟩,
    c7_unroll_equiv 4 2 1 17 2 (fun _ => 3) (fun t => t) rfl (by omega)⟩

/-- C10: Disjoint, in-bounds write footprint.  For every interior stage with
orchestrator-produced parameters (`2*gap*m = n`), each unit of the dispatch
writes exactly its own buffer slots (two for the small-gap kernel, eight for
the large-gap kernel with unroll 4), all written indices are strictly less
than `n`, and the slot sets written by distinct unit indices are pairwise
disjoint.  (The large-gap facts additionally assume `4 ≤ gap` and `4 ∣ gap`,
which hold whenever the orchestrator selects that kernel.) -/
theorem c10_disjoint_writes (gap m n rounds modulus : ℕ) (roots : ℕ → ℕ)
    (hn : 2 * gap * m = n) (hg : 1 ≤ gap) :
    ((∀ idx (vals : ℕ → ℕ) t, t ∉ smallSlotList gap idx →
        DwtGapLE4 gap rounds modulus roots idx vals t = vals t)
      ∧ (∀ idx (vals : ℕ → ℕ),
          DwtGapLE4 gap rounds modulus roots idx vals (offS gap idx)
            = dwt_add (dwt_guard (vals (offS gap idx)) (2 * modulus))
                (dwt_mul_root (vals (offS gap idx + gap))
                  (roots (rounds + idx / gap)) modulus)
          ∧ DwtGapLE4 gap rounds modulus roots idx vals (offS gap idx + gap)
            = dwt_sub (dwt_guard (vals (offS gap idx)) (2 * modulus))
                (dwt_mul_root (vals (offS gap idx + gap))
                  (roots (rounds + idx / gap)) modulus) (2 * modulus))
      ∧ (∀ idx, (smallSlotList gap idx).length = 2 ∧ (smallSlotList gap idx).Nodup)
      ∧ (∀ idx t, idx < m * gap → t ∈ smallSlotList gap idx → t < n)
      ∧ (∀ idx idx2 t, idx ≠ idx2 → t ∈ smallSlotList gap idx →
          t ∉ smallSlotList gap idx2))
    ∧ (4 ≤ gap → 4 ∣ gap →
      (∀ idx (vals : ℕ → ℕ) t, t ∉ largeSlotList gap idx →
          DwtLargeGap gap rounds modulus roots 4 idx vals t = vals t)
      ∧ (∀ idx (vals : ℕ → ℕ) k, k < 4 →
          DwtLargeGap gap rounds modulus roots 4 idx vals (offL gap idx + k)
            = dwt_add (dwt_guard (vals (offL gap idx + k)) (2 * modulus))
                (dwt_mul_root (vals (offL gap idx + k + gap))
                  (roots (rounds + idx / (gap / 4))) modulus)
          ∧ DwtLargeGap gap rounds modulus roots 4 idx vals (offL gap idx + gap + k)
            = dwt_sub (dwt_guard (vals (offL gap idx + k)) (2 * modulus))
                (dwt_mul_root (vals (offL gap idx + gap + k))
                  (roots (rounds + idx / (gap / 4))) modulus) (2 * modulus))
      ∧ (∀ idx, (largeSlotList gap idx).length = 8 ∧ (largeSlotList gap idx).Nodup)
      ∧ (∀ idx t, idx < m * (gap / 4) → t ∈ largeSlotList gap idx → t < n)
      ∧ (∀ idx idx2 t, idx ≠ idx2 → t ∈ largeSlotList gap idx →
          t ∉ largeSlotList gap idx2)) := by
  constructor
  · refine ⟨?_, ?_, ?_, ?_, ?_⟩
    · intro idx vals t ht
      exact DwtGapLE4_untouched rounds modulus roots vals
        (fun hw => ht (mem_smallSlotList.mpr hw))
    · intro idx vals
      constructor
      · rw [DwtGapLE4_apply, if_neg (by omega), if_pos rfl]
      · rw [DwtGapLE4_apply, if_pos rfl]
    · intro idx
      refine ⟨rfl, ?_⟩
      simp [smallSlotList]
      omega
    · intro idx t hidx ht
      exact WS_lt (by omega) hn hidx (mem_smallSlotList.mp ht)
    · intro idx idx2 t hne ht ht2
      exact WS_disjoint (by omega) hne (mem_smallSlotList.mp ht)
        (mem_smallSlotList.mp ht2)
  · intro h4 hd
    refine ⟨?_, ?_, ?_, ?_, ?_⟩
    · intro idx vals t ht
      exact DwtLargeGap_untouched rounds modulus roots vals h4
        (fun hw => ht (mem_largeSlotList.mpr hw))
    · intro idx vals k hk
      have hch := congrFun (largeGapLoop_eq gap modulus
        (roots (rounds + idx / (gap / 4))) (offL gap idx) vals 4 h4) (offL gap idx + k)
      have hch2 := congrFun (largeGapLoop_eq gap modulus
        (roots (rounds + idx / (gap / 4))) (offL gap idx) vals 4 h4)
        (offL gap idx + gap + k)
      simp only [] at hch hch2
      constructor
      · rw [DwtLargeGap_apply, hch, if_pos (by omega)]
      · rw [DwtLargeGap_apply, hch2, if_neg (by omega), if_pos (by omega)]
        have e : offL gap idx + gap + k - gap = offL gap idx + k := by omega
        rw [e]
    · intro idx
      refine ⟨rfl, ?_⟩
      simp [largeSlotList]
      omega
    · intro idx t hidx ht
      exact WL_lt h4 hd hn hidx (mem_largeSlotList.mp ht)
    · intro idx idx2 t hne ht ht2
      exact WL_disjoint h4 hd hne (mem_largeSlotList.mp ht)
        (mem_largeSlotList.mp ht2)

/-- Witness for C10 at `gap = 4`, `m = 2`, `n = 16`. -/
theorem c10_disjoint_writes_witness :
    ((2 * 4 * 2 = 16) ∧ (1 ≤ 4))
    ∧ ((∀ idx (vals : ℕ → ℕ) t, t ∉ smallSlotList 4 idx →
        DwtGapLE4 4 1 17 (fun _ => 3) idx vals t = vals t)
      ∧ (∀ idx (vals : ℕ → ℕ),
          DwtGapLE4 4 1 17 (fun _ => 3) idx vals (offS 4 idx)
            = dwt_add (dwt_guard (vals (offS 4 idx)) (2 * 17))
                (dwt_mul_root (vals (offS 4 idx + 4))
                  ((fun _ => 3) (1 + idx / 4)) 17)
          ∧ DwtGapLE4 4 1 17 (fun _ => 3) idx vals (offS 4 idx + 4)
            = dwt_sub (dwt_guard (vals (offS 4 idx)) (2 * 17))
                (dwt_mul_root (vals (offS 4 idx + 4))
                  ((fun _ => 3) (1 + idx / 4)) 17) (2 * 17))
      ∧ (∀ idx, (smallSlotList 4 idx).length = 2 ∧ (smallSlotList 4 idx).Nodup)
      ∧ (∀ idx t, idx < 2 * 4 → t ∈ smallSlotList 4 idx → t < 16)
      ∧ (∀ idx idx2 t, idx ≠ idx2 → t ∈ smallSlotList 4 idx →
          t ∉ smallSlotList 4 idx2))
    ∧ (4 ≤ 4 → 4 ∣ 4 →
      (∀ idx (vals : ℕ → ℕ) t, t ∉ largeSlotList 4 idx →
          DwtLargeGap 4 1 17 (fun _ => 3) 4 idx vals t = vals t)
      ∧ (∀ idx (vals : ℕ → ℕ) k, k < 4 →
          DwtLargeGap 4 1 17 (fun _ => 3) 4 idx vals (offL 4 idx + k)
            = dwt_add (dwt_guard (vals (offL 4 idx + k)) (2 * 17))
                (dwt_mul_root (vals (offL 4 idx + k + 4))
                  ((fun _ => 3) (1 + idx / (4 / 4))) 17)
          ∧ DwtLargeGap 4 1 17 (fun _ => 3) 4 idx vals (offL 4 idx + 4 + k)
            = dwt_sub (dwt_guard (vals (offL 4 idx + k)) (2 * 17))
                (dwt_mul_root (vals (offL 4 idx + 4 + k))
                  ((fun _ => 3) (1 + idx / (4 / 4))) 17) (2 * 17))
      ∧ (∀ idx, (largeSlotList 4 idx).length = 8 ∧ (largeSlotList 4 idx).Nodup)
      ∧ (∀ idx t, idx < 2 * (4 / 4) → t ∈ largeSlotList 4 idx → t < 16)
      ∧ (∀ idx idx2 t, idx ≠ idx2 → t ∈ largeSlotList 4 idx →
          t ∉ largeSlotList 4 idx2)) :=
  ⟨⟨by omega, by omega⟩,
    c10_disjoint_writes 4 2 16 1 17 (fun _ => 3) (by omega) (by omega)⟩

/-- C2: Range invariant.  Assuming the section-6 arithmetic-primitive
contracts (which the spec-modelled primitives above satisfy: `dwt_guard_lt`,
`dwt_mul_root_lt`), for canonical input every buffer slot lies in
`[0, 4*modulus)` after every interior stage dispatch, and in `[0, modulus)`
after the final stage dispatch, scalar or non-scalar. -/
theorem c2_range_invariant (modulus L : ℕ) (roots vals : ℕ → ℕ)
    (hM : 0 < modulus) (hL : 1 ≤ L)
    (hv : ∀ t, t < 2 ^ L → vals t < modulus) :
    (∀ k, 1 ≤ k → k ≤ L - 1 → ∀ t, t < 2 ^ L →
        bufAfter modulus roots L vals k t < 4 * modulus)
    ∧ (∀ t, t < 2 ^ L → Dwt_gpu modulus roots none L vals t < modulus)
    ∧ (∀ s t, t < 2 ^ L → Dwt_gpu modulus roots (some s) L vals t < modulus) := by
  have hstage : ∀ k, k ≤ L - 1 → ∀ t, t < 2 ^ L →
      stagesAux modulus roots L k 0 vals t < 4 * modulus := by
    intro k
    induction k with
    | zero =>
      intro _ t ht
      have h2 := hv t ht
      show vals t < 4 * modulus
      omega
    | succ k ih =>
      intro hk t ht
      have hks : k ≤ L - 1 := by omega
      rw [stagesAux_succ modulus roots L k 0 vals]
      simp only [Nat.zero_add]
      rw [stageDispatch_eq_stageMap modulus roots (2 ^ k) (2 ^ k) (L - (k + 1)) rfl]
      have hsize : 2 * 2 ^ (L - (k + 1)) * 2 ^ k = 2 ^ L := stage_pow_size (by omega)
      refine stageMap_bound (2 ^ k) roots (stagesAux modulus roots L k 0 vals) hM
        (pow_pos (by omega) _) ?_ t ?_
      · intro t2 ht2
        rw [hsize] at ht2
        exact ih hks t2 ht2
      · rw [hsize]
        exact ht
  have hfin : ∀ t, t < 2 * 2 ^ (L - 1) →
      stagesAux modulus roots L (L - 1) 0 vals t < 4 * modulus := by
    intro t ht
    have e : 2 * 2 ^ (L - 1) = 2 ^ L := by
      rw [← pow_succ']
      congr 1
      omega
    exact hstage (L - 1) (by omega) t (by omega)
  refine ⟨?_, ?_, ?_⟩
  · intro k h1 h2 t ht
    rw [bufAfter_eq modulus roots L vals k (by omega)]
    exact hstage k (by omega) t ht
  · intro t ht
    have e : 2 * 2 ^ (L - 1) = 2 ^ L := by
      rw [← pow_succ']
      congr 1
      omega
    rw [Dwt_gpu_none modulus roots L vals hL, dispatch_DwtLastRound]
    exact lastRoundMap_bound (2 ^ (L - 1)) roots _ hM hfin t (by omega)
  · intro s t ht
    have e : 2 * 2 ^ (L - 1) = 2 ^ L := by
      rw [← pow_succ']
      congr 1
      omega
    rw [Dwt_gpu_some modulus roots s L vals hL, dispatch_DwtLastRoundScalar]
    exact lastRoundScalarMap_bound (2 ^ (L - 1)) s roots _ hM hfin t (by omega)

/-- Witness for C2 at `modulus = 17`, `log_n = 2`, input `[1, 2, 3, 4]`. -/
theorem c2_range_invariant_witness :
    ((0 : ℕ) < 17 ∧ (1 : ℕ) ≤ 2
      ∧ (∀ t, t < 2 ^ 2 → (fun t => t + 1 : ℕ → ℕ) t < 17))
    ∧ ((∀ k, 1 ≤ k → k ≤ 2 - 1 → ∀ t, t < 2 ^ 2 →
          bufAfter 17 (fun _ => 2) 2 (fun t => t + 1) k t < 4 * 17)
      ∧ (∀ t, t < 2 ^ 2 → Dwt_gpu 17 (fun _ => 2) none 2 (fun t => t + 1) t < 17)
      ∧ (∀ s t, t < 2 ^ 2 →
          Dwt_gpu 17 (fun _ => 2) (some s) 2 (fun t => t + 1) t < 17)) :=
  ⟨⟨by omega, by omega, by decide⟩,
    c2_range_invariant 17 2 (fun _ => 2) (fun t => t + 1) (by omega) (by omega)
      (by decide)⟩

/-- C5: Orchestrator loop invariant.  The `k`-th (0-indexed) interior
iteration of the stage loop dispatches with `m = 2^k`,
`gap = n / 2^(k+1)` (the value current after the iteration's `gap >>= 1`),
and `root_offset = total_r` equal to 1 plus the sum of the `m` values of all
prior iterations; the loop runs exactly `log_n - 1` iterations and
terminates with `m = n/2` (which is also the final `total_r`). -/
theorem c5_loop_invariant (modulus L : ℕ) (roots vals : ℕ → ℕ) (hL : 1 ≤ L) :
    (dwtInterior modulus roots L vals).2.2.2.length = L - 1
    ∧ (∀ k (hk : k < (dwtInterior modulus roots L vals).2.2.2.length),
        (dwtInterior modulus roots L vals).2.2.2.get ⟨k, hk⟩
          = (2 ^ L / 2 ^ (k + 1), 2 ^ k,
              1 + Finset.sum (Finset.range k) (fun j => 2 ^ j)))
    ∧ (dwtInterior modulus roots L vals).2.1 = 2 ^ L / 2
    ∧ (dwtInterior modulus roots L vals).2.2.1 = 2 ^ L / 2 := by
  have hsum : ∀ k : ℕ,
      1 + Finset.sum (Finset.range k) (fun j => (2 : ℕ) ^ j) = 2 ^ k := by
    intro k
    induction k with
    | zero => simp
    | succ k ih =>
      rw [Finset.sum_range_succ]
      have e : (2 : ℕ) ^ (k + 1) = 2 ^ k * 2 := pow_succ 2 k
      omega
  have hhalf : 2 ^ L / 2 = 2 ^ (L - 1) := by
    have e : L - 0 = L := by omega
    rw [← e]
    exact pow_sub_div_two (by omega)
  rw [dwtInterior_eq modulus roots L vals hL]
  refine ⟨traceAux_length L (L - 1) 0, ?_, hhalf.symm, hhalf.symm⟩
  intro k hk
  have hkl : k < L - 1 := by
    have h2 := hk
    rw [traceAux_length] at h2
    exact h2
  rw [traceAux_get L (L - 1) 0 k hk, hsum k]
  have hpd : 2 ^ L / 2 ^ (k + 1) = 2 ^ (L - (k + 1)) :=
    Nat.pow_div (by omega) (by omega)
  rw [hpd]
  simp only [Nat.zero_add]

/-- Witness for C5 at `log_n = 3`. -/
theorem c5_loop_invariant_witness :
    ((1 : ℕ) ≤ 3)
    ∧ ((dwtInterior 17 (fun _ => 1) 3 (fun t => t)).2.2.2.length = 3 - 1
      ∧ (∀ k (hk : k < (dwtInterior 17 (fun _ => 1) 3 (fun t => t)).2.2.2.length),
          (dwtInterior 17 (fun _ => 1) 3 (fun t => t)).2.2.2.get ⟨k, hk⟩
            = (2 ^ 3 / 2 ^ (k + 1), 2 ^ k,
                1 + Finset.sum (Finset.range k) (fun j => 2 ^ j)))
      ∧ (dwtInterior 17 (fun _ => 1) 3 (fun t => t)).2.1 = 2 ^ 3 / 2
      ∧ (dwtInterior 17 (fun _ => 1) 3 (fun t => t)).2.2.1 = 2 ^ 3 / 2) :=
  ⟨by omega, c5_loop_invariant 17 3 (fun _ => 1) (fun t => t) (by omega)⟩

/-- C6: Kernel selection and dispatch domain.  On interior iteration `k`,
after halving, `gap = n / 2^(k+1)`: if `gap < 4` the orchestrator dispatches
the small-gap kernel over exactly `m*gap` units with the current
`(gap, root_offset) = (n/2^(k+1), 2^k)`, and otherwise the large-gap kernel
with fixed unroll factor 4 over exactly `m*(gap/4)` units with the same
parameters. -/
theorem c6_kernel_selection (modulus L k : ℕ) (roots vals : ℕ → ℕ)
    (hL : 1 ≤ L) (hk : k < L - 1) :
    bufAfter modulus roots L vals (k + 1) =
      if 2 ^ L / 2 ^ (k + 1) < 4 then
        dispatch (DwtGapLE4 (2 ^ L / 2 ^ (k + 1)) (2 ^ k) modulus roots)
          (2 ^ k * (2 ^ L / 2 ^ (k + 1))) (bufAfter modulus roots L vals k)
      else
        dispatch (DwtLargeGap (2 ^ L / 2 ^ (k + 1)) (2 ^ k) modulus roots 4)
          (2 ^ k * (2 ^ L / 2 ^ (k + 1) / 4)) (bufAfter modulus roots L vals k) := by
  have hpd : 2 ^ L / 2 ^ (k + 1) = 2 ^ (L - (k + 1)) :=
    Nat.pow_div (by omega) (by omega)
  rw [bufAfter_eq modulus roots L vals (k + 1) (by omega),
    bufAfter_eq modulus roots L vals k (by omega),
    stagesAux_succ modulus roots L k 0 vals]
  simp only [Nat.zero_add]
  rw [hpd]
  rfl

/-- Witness for C6 at `log_n = 3`, iteration `k = 0` (large-gap branch). -/
theorem c6_kernel_selection_witness :
    ((1 : ℕ) ≤ 3 ∧ (0 : ℕ) < 3 - 1)
    ∧ bufAfter 17 (fun _ => 1) 3 (fun t => t) (0 + 1) =
      if 2 ^ 3 / 2 ^ (0 + 1) < 4 then
        dispatch (DwtGapLE4 (2 ^ 3 / 2 ^ (0 + 1)) (2 ^ 0) 17 (fun _ => 1))
          (2 ^ 0 * (2 ^ 3 / 2 ^ (0 + 1))) (bufAfter 17 (fun _ => 1) 3 (fun t => t) 0)
      else
        dispatch (DwtLargeGap (2 ^ 3 / 2 ^ (0 + 1)) (2 ^ 0) 17 (fun _ => 1) 4)
          (2 ^ 0 * (2 ^ 3 / 2 ^ (0 + 1) / 4)) (bufAfter 17 (fun _ => 1) 3 (fun t => t) 0) :=
  ⟨⟨by omega, by omega⟩,
    c6_kernel_selection 17 3 0 (fun _ => 1) (fun t => t) (by omega) (by omega)⟩

/-- C8: Output-slot swap.  In the non-scalar final-round kernel dispatch,
slot `2i` receives the fully reduced sum term (from `v0 = add(u, v)`) and
slot `2i+1` the fully reduced difference term (from `v1 = sub(u, v, 2M)`);
in the scalar variant this assignment is swapped: slot `2i` receives the
reduced difference term and slot `2i+1` the reduced sum term. -/
theorem c8_output_slots (rounds modulus s m i : ℕ) (roots vals : ℕ → ℕ)
    (him : i < m) :
    dispatch (DwtLastRound rounds modulus roots) m vals (2 * i)
        = fullReduce (dwt_add (dwt_guard (vals (2 * i)) (2 * modulus))
            (dwt_mul_root (vals (2 * i + 1)) (roots (rounds + i)) modulus)) modulus
    ∧ dispatch (DwtLastRound rounds modulus roots) m vals (2 * i + 1)
        = fullReduce (dwt_sub (dwt_guard (vals (2 * i)) (2 * modulus))
            (dwt_mul_root (vals (2 * i + 1)) (roots (rounds + i)) modulus)
            (2 * modulus)) modulus
    ∧ dispatch (DwtLastRoundScalar rounds modulus roots s) m vals (2 * i)
        = fullReduce (dwt_sub
            (dwt_mul_scalar (dwt_guard (vals (2 * i)) (2 * modulus)) s modulus)
            (dwt_mul_root (vals (2 * i + 1))
              (dwt_mul_root_scalar (roots (rounds + i)) s modulus) modulus)
            (2 * modulus)) modulus
    ∧ dispatch (DwtLastRoundScalar rounds modulus roots s) m vals (2 * i + 1)
        = fullReduce (dwt_add
            (dwt_mul_scalar (dwt_guard (vals (2 * i)) (2 * modulus)) s modulus)
            (dwt_mul_root (vals (2 * i + 1))
              (dwt_mul_root_scalar (roots (rounds + i)) s modulus) modulus)) modulus := by
  have e0 : 2 * i / 2 = i := by omega
  have e1 : (2 * i + 1) / 2 = i := by omega
  refine ⟨?_, ?_, ?_, ?_⟩
  · rw [dispatch_DwtLastRound, lastRoundMap, if_pos (by omega),
      if_pos (by omega : 2 * i % 2 = 0), e0]
  · rw [dispatch_DwtLastRound, lastRoundMap, if_pos (by omega),
      if_neg (by omega : ¬ (2 * i + 1) % 2 = 0), e1]
  · rw [dispatch_DwtLastRoundScalar, lastRoundScalarMap, if_pos (by omega),
      if_pos (by omega : 2 * i % 2 = 0), e0]
  · rw [dispatch_DwtLastRoundScalar, lastRoundScalarMap, if_pos (by omega),
      if_neg (by omega : ¬ (2 * i + 1) % 2 = 0), e1]

/-- Witness for C8 at `m = 2`, `i = 1`, `modulus = 17`. -/
theorem c8_output_slots_witness :
    ((1 : ℕ) < 2)
    ∧ (dispatch (DwtLastRound 1 17 (fun _ => 3)) 2 (fun t => t + 1) (2 * 1)
          = fullReduce (dwt_add (dwt_guard ((fun t => t + 1 : ℕ → ℕ) (2 * 1)) (2 * 17))
              (dwt_mul_root ((fun t => t + 1 : ℕ → ℕ) (2 * 1 + 1))
                ((fun _ => 3 : ℕ → ℕ) (1 + 1)) 17)) 17
      ∧ dispatch (DwtLastRound 1 17 (fun _ => 3)) 2 (fun t => t + 1) (2 * 1 + 1)
          = fullReduce (dwt_sub (dwt_guard ((fun t => t + 1 : ℕ → ℕ) (2 * 1)) (2 * 17))
              (dwt_mul_root ((fun t => t + 1 : ℕ → ℕ) (2 * 1 + 1))
                ((fun _ => 3 : ℕ → ℕ) (1 + 1)) 17) (2 * 17)) 17
      ∧ dispatch (DwtLastRoundScalar 1 17 (fun _ => 3) 5) 2 (fun t => t + 1) (2 * 1)
          = fullReduce (dwt_sub
              (dwt_mul_scalar (dwt_guard ((fun t => t + 1 : ℕ → ℕ) (2 * 1)) (2 * 17)) 5 17)
              (dwt_mul_root ((fun t => t + 1 : ℕ → ℕ) (2 * 1 + 1))
                (dwt_mul_root_scalar ((fun _ => 3 : ℕ → ℕ) (1 + 1)) 5 17) 17)
              (2 * 17)) 17
      ∧ dispatch (DwtLastRoundScalar 1 17 (fun _ => 3) 5) 2 (fun t => t + 1) (2 * 1 + 1)
          = fullReduce (dwt_add
              (dwt_mul_scalar (dwt_guard ((fun t => t + 1 : ℕ → ℕ) (2 * 1)) (2 * 17)) 5 17)
              (dwt_mul_root ((fun t => t + 1 : ℕ → ℕ) (2 * 1 + 1))
                (dwt_mul_root_scalar ((fun _ => 3 : ℕ → ℕ) (1 + 1)) 5 17) 17)) 17) :=
  ⟨by omega, c8_output_slots 1 17 5 2 1 (fun _ => 3) (fun t => t + 1) (by omega)⟩

/-- C9: Boundary case `log_n = 1` (`n = 2`).  The interior stage loop body is
never entered (the dispatch trace is empty and the buffer reaches the final
stage untouched), only the terminal final-round dispatch over one unit runs,
and for canonical input the resulting buffer equals the direct two-point
butterfly formula with full reduction to `[0, modulus)`. -/
theorem c9_boundary (modulus : ℕ) (roots vals : ℕ → ℕ) (hM : 0 < modulus)
    (h0 : vals 0 < modulus) (h1 : vals 1 < modulus) :
    (dwtInterior modulus roots 1 vals).2.2.2 = []
    ∧ (dwtInterior modulus roots 1 vals).1 = vals
    ∧ (dwtInterior modulus roots 1 vals).2.1 = 1
    ∧ Dwt_gpu modulus roots none 1 vals = fun t =>
        if t = 0 then (vals 0 + vals 1 * roots 1) % modulus
        else if t = 1 then
          (2 * modulus + vals 0 - vals 1 * roots 1 % modulus) % modulus
        else vals t := by
  refine ⟨rfl, rfl, rfl, ?_⟩
  rw [Dwt_gpu_none modulus roots 1 vals (by omega), dispatch_DwtLastRound]
  funext t
  have hg : dwt_guard (vals 0) (2 * modulus) = vals 0 := by
    simp only [dwt_guard]
    rw [if_neg (by omega)]
  by_cases ht0 : t = 0
  · subst ht0
    have happ : lastRoundMap (2 ^ (1 - 1)) modulus (2 ^ (1 - 1)) roots
        (stagesAux modulus roots 1 (1 - 1) 0 vals) 0
        = fullReduce (dwt_add (dwt_guard (vals 0) (2 * modulus))
            (dwt_mul_root (vals 1) (roots 1) modulus)) modulus := by
      rw [lastRoundMap]
      norm_num
      rfl
    rw [happ, hg]
    have hlt : dwt_add (vals 0) (dwt_mul_root (vals 1) (roots 1) modulus)
        < 4 * modulus := by
      have hv := dwt_mul_root_lt (vals 1) (roots 1) hM
      simp only [dwt_add]
      omega
    rw [fullReduce_eq_mod hlt]
    show (vals 0 + vals 1 * roots 1 % modulus) % modulus
      = (vals 0 + vals 1 * roots 1) % modulus
    exact Nat.ModEq.add_left _ (Nat.mod_modEq _ _)
  · by_cases ht1 : t = 1
    · subst ht1
      have happ : lastRoundMap (2 ^ (1 - 1)) modulus (2 ^ (1 - 1)) roots
          (stagesAux modulus roots 1 (1 - 1) 0 vals) 1
          = fullReduce (dwt_sub (dwt_guard (vals 0) (2 * modulus))
              (dwt_mul_root (vals 1) (roots 1) modulus) (2 * modulus)) modulus := by
        rw [lastRoundMap]
        norm_num
        rfl
      rw [happ, hg]
      have hv := dwt_mul_root_lt (vals 1) (roots 1) hM
      have hlt : dwt_sub (vals 0)
          (dwt_mul_root (vals 1) (roots 1) modulus) (2 * modulus) < 4 * modulus := by
        simp only [dwt_sub]
        split_ifs <;> omega
      rw [if_neg ht0, if_pos rfl, fullReduce_eq_mod hlt]
      simp only [dwt_sub, dwt_mul_root]
      split_ifs with hvu
      · have e : 2 * modulus + vals 0 - vals 1 * roots 1 % modulus
            = vals 0 - vals 1 * roots 1 % modulus + 2 * modulus := by omega
        rw [e, Nat.add_mul_mod_self_right]
      · congr 1
        omega
    · have happ : lastRoundMap (2 ^ (1 - 1)) modulus (2 ^ (1 - 1)) roots
          (stagesAux modulus roots 1 (1 - 1) 0 vals) t = vals t := by
        rw [lastRoundMap, if_neg (by omega)]
        rfl
      rw [happ, if_neg ht0, if_neg ht1]

/-- Witness for C9 at `modulus = 17`, `roots 1 = 2`, input `[3, 5]`. -/
theorem c9_boundary_witness :
    ((0 : ℕ) < 17 ∧ (fun t => t + 3 : ℕ → ℕ) 0 < 17 ∧ (fun t => t + 3 : ℕ → ℕ) 1 < 17)
    ∧ ((dwtInterior 17 (fun _ => 2) 1 (fun t => t + 3)).2.2.2 = []
      ∧ (dwtInterior 17 (fun _ => 2) 1 (fun t => t + 3)).1 = (fun t => t + 3)
      ∧ (dwtInterior 17 (fun _ => 2) 1 (fun t => t + 3)).2.1 = 1
      ∧ Dwt_gpu 17 (fun _ => 2) none 1 (fun t => t + 3) = fun t =>
          if t = 0 then ((fun t => t + 3 : ℕ → ℕ) 0
              + (fun t => t + 3 : ℕ → ℕ) 1 * (fun _ => 2 : ℕ → ℕ) 1) % 17
          else if t = 1 then
            (2 * 17 + (fun t => t + 3 : ℕ → ℕ) 0
              - (fun t => t + 3 : ℕ → ℕ) 1 * (fun _ => 2 : ℕ → ℕ) 1 % 17) % 17
          else (fun t => t + 3 : ℕ → ℕ) t) :=
  ⟨⟨by omega, by decide, by decide⟩,
    c9_boundary 17 (fun _ => 2) (fun t => t + 3) (by omega) (by decide) (by decide)⟩

/-- C3 counterexample.  With `modulus = 17`, root table constantly 1,
`rounds = 1`, scalar `s = 1` and buffer `[1, 1]`, running the non-scalar
final round and then scaling every slot by `s` puts `2` in slot 0, while the
scalar-merged final round puts `0` there (and `2` in slot 1): the two buffers
differ, refuting the claimed equality.  The discrepancy is exactly the
swapped output-slot assignment of `DwtLastRoundScalar`. -/
theorem c3_counterexample :
    scaleBuf 17 1 2 (dispatch (DwtLastRound 1 17 c3roots) 1 c3vals) 0 = 2
    ∧ dispatch (DwtLastRoundScalar 1 17 c3roots 1) 1 c3vals 0 = 0
    ∧ scaleBuf 17 1 2 (dispatch (DwtLastRound 1 17 c3roots) 1 c3vals) 0
        ≠ dispatch (DwtLastRoundScalar 1 17 c3roots 1) 1 c3vals 0 := by
  refine ⟨rfl, rfl, ?_⟩
  decide

/-- C3 amended: running the non-scalar final-round kernel over all `m` units
and then multiplying every buffer slot by `s` modulo the modulus yields the
same buffer as running the scalar-merged final-round kernel with scalar `s`
and then swapping the two slots of every pair (the slot swap is forced by the
counterexample; the even-slot inputs must be within the `[0, 4*modulus)`
working range of the guard, as guaranteed by the interior stages). -/
theorem c3_scalar_merge_swapped (rounds modulus s m : ℕ) (roots vals : ℕ → ℕ)
    (hM : 0 < modulus) (hv : ∀ i, i < m → vals (2 * i) < 4 * modulus) :
    scaleBuf modulus s (2 * m) (dispatch (DwtLastRound rounds modulus roots) m vals)
      = pairSwap m (dispatch (DwtLastRoundScalar rounds modulus roots s) m vals) := by
  rw [dispatch_DwtLastRound, dispatch_DwtLastRoundScalar]
  funext t
  rw [scaleBuf, pairSwap]
  by_cases ht : t < 2 * m
  · rw [if_pos ht, if_pos ht]
    have hvt : vals (2 * (t / 2)) < 4 * modulus := hv (t / 2) (by omega)
    have hu2 : dwt_guard (vals (2 * (t / 2))) (2 * modulus) < 2 * modulus :=
      dwt_guard_lt hvt
    have hv1 : dwt_mul_root (vals (2 * (t / 2) + 1)) (roots (rounds + t / 2)) modulus
        < modulus := Nat.mod_lt _ hM
    have hv2 : dwt_mul_root (vals (2 * (t / 2) + 1))
        (dwt_mul_root_scalar (roots (rounds + t / 2)) s modulus) modulus
        < modulus := Nat.mod_lt _ hM
    have hu3 : dwt_mul_scalar (dwt_guard (vals (2 * (t / 2))) (2 * modulus)) s modulus
        < modulus := Nat.mod_lt _ hM
    split_ifs with hpar
    · rw [lastRoundMap, if_pos ht, if_pos hpar]
      rw [lastRoundScalarMap, if_pos (by omega : t + 1 < 2 * m),
        if_neg (by omega : ¬ (t + 1) % 2 = 0)]
      have e2 : (t + 1) / 2 = t / 2 := by omega
      rw [e2]
      rw [fullReduce_eq_mod (by simp only [dwt_add]; omega),
        fullReduce_eq_mod (by simp only [dwt_add]; omega)]
      refine eq_of_natCast_eq hM (Nat.mod_lt _ hM) (Nat.mod_lt _ hM) ?_
      rw [ZMod.natCast_mod, Nat.cast_mul, ZMod.natCast_mod, ZMod.natCast_mod]
      simp only [dwt_add, dwt_mul_scalar, dwt_mul_root, dwt_mul_root_scalar]
      push_cast [ZMod.natCast_mod]
      ring
    · rw [lastRoundMap, if_pos ht, if_neg hpar]
      rw [lastRoundScalarMap, if_pos (by omega : t - 1 < 2 * m),
        if_pos (by omega : (t - 1) % 2 = 0)]
      have e2 : (t - 1) / 2 = t / 2 := by omega
      rw [e2]
      rw [fullReduce_eq_mod (by simp only [dwt_sub]; split_ifs <;> omega),
        fullReduce_eq_mod (by simp only [dwt_sub]; split_ifs <;> omega)]
      refine eq_of_natCast_eq hM (Nat.mod_lt _ hM) (Nat.mod_lt _ hM) ?_
      rw [ZMod.natCast_mod, Nat.cast_mul, ZMod.natCast_mod, ZMod.natCast_mod]
      rw [natCast_dwt_sub modulus (by omega),
        natCast_dwt_sub modulus (by omega)]
      simp only [dwt_mul_scalar, dwt_mul_root, dwt_mul_root_scalar]
      push_cast [ZMod.natCast_mod]
      ring
  · rw [if_neg ht, if_neg ht, lastRoundMap, if_neg ht, lastRoundScalarMap, if_neg ht]

/-- Witness for the amended C3 at `m = 1`, `modulus = 17`, `s = 5`. -/
theorem c3_scalar_merge_swapped_witness :
    ((0 : ℕ) < 17 ∧ (∀ i, i < 1 → (fun t => t + 1 : ℕ → ℕ) (2 * i) < 4 * 17))
    ∧ scaleBuf 17 5 (2 * 1) (dispatch (DwtLastRound 1 17 (fun _ => 3)) 1 (fun t => t + 1))
      = pairSwap 1 (dispatch (DwtLastRoundScalar 1 17 (fun _ => 3) 5) 1 (fun t => t + 1)) :=
  ⟨⟨by omega, by decide⟩,
    c3_scalar_merge_swapped 1 17 5 1 (fun _ => 3) (fun t => t + 1) (by omega) (by decide)⟩

/-- C4 counterexample.  For `log_n = 1` (`n = 2`) the claim asserts every
root-table index read stays strictly below `n - 1 = 1`, i.e. that a table of
one entry suffices.  But the final-round dispatch reads index
`total_r + i = 1`: the two tables `c4roots1` and `c4roots2` agree on every
index strictly below 1 (they agree at index 0), yet the transform outputs
differ, so index 1 = n - 1 is read. -/
theorem c4_counterexample :
    c4roots1 0 = c4roots2 0
    ∧ Dwt_gpu 17 c4roots1 none 1 c4vals 0 = 9
    ∧ Dwt_gpu 17 c4roots2 none 1 c4vals 0 = 5
    ∧ Dwt_gpu 17 c4roots1 none 1 c4vals 0 ≠ Dwt_gpu 17 c4roots2 none 1 c4vals 0 := by
  refine ⟨rfl, rfl, rfl, ?_⟩
  decide

/-- C4 amended: a root table of `n` entries (not `n - 1`) is sufficient:
every root-table index read by any interior-stage or final-round kernel
during the call is strictly less than `n`, expressed observationally: two
tables agreeing on all indices below `n = 2^log_n` produce identical
transforms (for both the scalar and non-scalar variants). -/
theorem c4_table_size (modulus L : ℕ) (roots1 roots2 : ℕ → ℕ)
    (scalar : Option ℕ) (vals : ℕ → ℕ) (hL : 1 ≤ L)
    (hagree : ∀ t, t < 2 ^ L → roots1 t = roots2 t) :
    Dwt_gpu modulus roots1 scalar L vals = Dwt_gpu modulus roots2 scalar L vals := by
  have hbuf : stagesAux modulus roots1 L (L - 1) 0 vals
      = stagesAux modulus roots2 L (L - 1) 0 vals :=
    stagesAux_congr hagree (L - 1) 0 vals (by omega)
  have hlast : ∀ idx, idx < 2 ^ (L - 1) →
      roots1 (2 ^ (L - 1) + idx) = roots2 (2 ^ (L - 1) + idx) := by
    intro idx hidx
    refine hagree _ ?_
    have e2 : (2 : ℕ) ^ L = 2 ^ (L - 1) * 2 := by
      rw [← pow_succ]
      congr 1
      omega
    omega
  cases scalar with
  | none =>
    rw [Dwt_gpu_none modulus roots1 L vals hL, Dwt_gpu_none modulus roots2 L vals hL,
      hbuf]
    exact dispatch_congr _
      (fun idx hidx vals0 => DwtLastRound_congr (hlast idx hidx) vals0) _
  | some s =>
    rw [Dwt_gpu_some modulus roots1 s L vals hL, Dwt_gpu_some modulus roots2 s L vals hL,
      hbuf]
    exact dispatch_congr _
      (fun idx hidx vals0 => DwtLastRoundScalar_congr (hlast idx hidx) vals0) _

/-- Witness for the amended C4 at `log_n = 1` with two tables that agree on
indices 0 and 1 (all indices below `n = 2`) but differ from index 2 on. -/
theorem c4_table_size_witness :
    ((1 : ℕ) ≤ 1
      ∧ (∀ t, t < 2 ^ 1 → (fun t => if t < 2 then t + 3 else 0 : ℕ → ℕ) t
          = (fun t => if t < 2 then t + 3 else 99 : ℕ → ℕ) t))
    ∧ Dwt_gpu 17 (fun t => if t < 2 then t + 3 else 0) none 1 c4vals
      = Dwt_gpu 17 (fun t => if t < 2 then t + 3 else 99) none 1 c4vals :=
  ⟨⟨by omega, by decide⟩,
    c4_table_size 17 1 (fun t => if t < 2 then t + 3 else 0)
      (fun t => if t < 2 then t + 3 else 99) none c4vals (by omega) (by decide)⟩

/-- C1: Round-trip law, evaluated at the specification's own concrete
scenario (`n = 4`, `modulus = 17`, primitive 8th root `psi = 2`, input
`[1, 2, 3, 4]`, scalar `13 = 1/4 mod 17`) with the spec-mandated forward and
inverse root tables.  The forward transform produces `[15, 11, 13, 16]`
(which is the correct negacyclic transform in bit-reversed order), but the
engine run as the inverse (inverse table plus merged scalar) does not return
`[1, 2, 3, 4]` under any accounting of the bit-reversal permutation: neither
applying the inverse directly, nor after bit-reversing its input, nor
bit-reversing either result, recovers the original buffer.  The engine's
butterflies are decimation-in-time only, and the scalar kernel's output slots
are swapped, so the documented inverse configuration does not invert the
forward pass. -/
theorem c1_roundtrip_failure :
    (Dwt_gpu 17 rootsFwd4 none 2 input4 0,
      Dwt_gpu 17 rootsFwd4 none 2 input4 1,
      Dwt_gpu 17 rootsFwd4 none 2 input4 2,
      Dwt_gpu 17 rootsFwd4 none 2 input4 3) = (15, 11, 13, 16)
    ∧ (Dwt_gpu 17 rootsInv4 (some 13) 2 (Dwt_gpu 17 rootsFwd4 none 2 input4) 0,
        Dwt_gpu 17 rootsInv4 (some 13) 2 (Dwt_gpu 17 rootsFwd4 none 2 input4) 1,
        Dwt_gpu 17 rootsInv4 (some 13) 2 (Dwt_gpu 17 rootsFwd4 none 2 input4) 2,
        Dwt_gpu 17 rootsInv4 (some 13) 2 (Dwt_gpu 17 rootsFwd4 none 2 input4) 3)
      = (0, 15, 3, 14)
    ∧ (Dwt_gpu 17 rootsInv4 (some 13) 2 (brev4 (Dwt_gpu 17 rootsFwd4 none 2 input4)) 0,
        Dwt_gpu 17 rootsInv4 (some 13) 2 (brev4 (Dwt_gpu 17 rootsFwd4 none 2 input4)) 1,
        Dwt_gpu 17 rootsInv4 (some 13) 2 (brev4 (Dwt_gpu 17 rootsFwd4 none 2 input4)) 2,
        Dwt_gpu 17 rootsInv4 (some 13) 2 (brev4 (Dwt_gpu 17 rootsFwd4 none 2 input4)) 3)
      = (5, 1, 1, 8)
    ∧ (Dwt_gpu 17 rootsInv4 (some 13) 2 (Dwt_gpu 17 rootsFwd4 none 2 input4) 0,
        Dwt_gpu 17 rootsInv4 (some 13) 2 (Dwt_gpu 17 rootsFwd4 none 2 input4) 1,
        Dwt_gpu 17 rootsInv4 (some 13) 2 (Dwt_gpu 17 rootsFwd4 none 2 input4) 2,
        Dwt_gpu 17 rootsInv4 (some 13) 2 (Dwt_gpu 17 rootsFwd4 none 2 input4) 3)
      ≠ (input4 0, input4 1, input4 2, input4 3)
    ∧ (brev4 (Dwt_gpu 17 rootsInv4 (some 13) 2 (Dwt_gpu 17 rootsFwd4 none 2 input4)) 0,
        brev4 (Dwt_gpu 17 rootsInv4 (some 13) 2 (Dwt_gpu 17 rootsFwd4 none 2 input4)) 1,
        brev4 (Dwt_gpu 17 rootsInv4 (some 13) 2 (Dwt_gpu 17 rootsFwd4 none 2 input4)) 2,
        brev4 (Dwt_gpu 17 rootsInv4 (some 13) 2 (Dwt_gpu 17 rootsFwd4 none 2 input4)) 3)
      ≠ (input4 0, input4 1, input4 2, input4 3)
    ∧ (Dwt_gpu 17 rootsInv4 (some 13) 2 (brev4 (Dwt_gpu 17 rootsFwd4 none 2 input4)) 0,
        Dwt_gpu 17 rootsInv4 (some 13) 2 (brev4 (Dwt_gpu 17 rootsFwd4 none 2 input4)) 1,
        Dwt_gpu 17 rootsInv4 (some 13) 2 (brev4 (Dwt_gpu 17 rootsFwd4 none 2 input4)) 2,
        Dwt_gpu 17 rootsInv4 (some 13) 2 (brev4 (Dwt_gpu 17 rootsFwd4 none 2 input4)) 3)
      ≠ (input4 0, input4 1, input4 2, input4 3)
    ∧ (brev4 (Dwt_gpu 17 rootsInv4 (some 13) 2
          (brev4 (Dwt_gpu 17 rootsFwd4 none 2 input4))) 0,
        brev4 (Dwt_gpu 17 rootsInv4 (some 13) 2
          (brev4 (Dwt_gpu 17 rootsFwd4 none 2 input4))) 1,
        brev4 (Dwt_gpu 17 rootsInv4 (some 13) 2
          (brev4 (Dwt_gpu 17 rootsFwd4 none 2 input4))) 2,
        brev4 (Dwt_gpu 17 rootsInv4 (some 13) 2
          (brev4 (Dwt_gpu 17 rootsFwd4 none 2 input4))) 3)
      ≠ (input4 0, input4 1, input4 2, input4 3) := by
  refine ⟨rfl, rfl, rfl, ?_, ?_, ?_, ?_⟩ <;> decide

end XeheDwt
